import Mathlib

/-!
# go-ycsb: measurement core and storage adapters

A shallow embedding of `pkg/measurement/measurement.go` and of the metric
scopes of `metrics/init.go`, followed by the S3 adapter of `db/s3` and the row
keys of the FoundationDB adapter of `db/foundationdb`.

* Go strings are Lean strings; `sort.Strings` orders them by `<`, which on
  valid UTF-8 is the code point order of `String`.
* `time.Duration` and `int64` values are integers.
* A Go map is an association list with distinct keys; the order of the list
  stands for the (unspecified) iteration order of the map.
* Pointers to histograms are addresses in a heap of histograms, so that two
  histograms with equal contents are still two instances.
* A panic is an explicit outcome; output to the console and to the metric
  scopes is a list of events.
-/

namespace Measurement

/-! ## Configuration -/

/-- The loaded configuration `*properties.Properties`, as the list of its
key/value pairs after expansion. -/
abbrev Properties := List (String × String)

/-- Lookup of a key, `Properties.Get`. -/
def Properties.Get (p : Properties) (key : String) : Option String :=
  p.lookup key

/-- Value of a decimal digit, none for any other character. -/
def digitVal (c : Char) : Option Nat :=
  if '0' ≤ c ∧ c ≤ '9' then some (c.toNat - '0'.toNat) else none

/-- Value of a non-empty string of decimal digits, read left to right on top
of the accumulator `acc`. -/
def parseDigits : List Char → Nat → Option Nat
  | [], acc => some acc
  | c :: cs, acc =>
    match digitVal c with
    | some d => parseDigits cs (acc * 10 + d)
    | none => none

/-- The call `strconv.ParseInt(s, 10, 64)`: an optional sign, then at least one
decimal digit and nothing else, the value within the range of int64. The error
is `none`. -/
def parseInt64 (s : String) : Option Int :=
  let body (cs : List Char) (neg : Bool) : Option Int :=
    match cs with
    | [] => none
    | _ =>
      match parseDigits cs 0 with
      | none => none
      | some n =>
        if neg then (if n ≤ 2 ^ 63 then some (-(n : Int)) else none)
        else (if n < 2 ^ 63 then some (n : Int) else none)
  match s.toList with
  | '+' :: cs => body cs false
  | '-' :: cs => body cs true
  | cs => body cs false

/-- The method `Properties.GetInt64(key, def)` of magiconair/properties: the
value parsed as an int64 when the key exists and parses, the default `dflt`
when the key is missing or its value cannot be parsed. -/
def Properties.GetInt64 (p : Properties) (key : String) (dflt : Int) : Int :=
  match p.Get key with
  | some v =>
    match parseInt64 v with
    | some n => n
    | none => dflt
  | none => dflt

/-- The constant `prop.WarmUpTime`, the configuration key of the warm-up
duration. -/
def WarmUpTime : String := "warmuptime"

/-! ## Strings -/

/-- Lexicographic comparison of two sequences of code units. -/
def lexLt : List Nat → List Nat → Bool
  | [], [] => false
  | [], _ :: _ => true
  | _ :: _, [] => false
  | a :: as, b :: bs =>
    if a < b then true else if b < a then false else lexLt as bs

/-- The code points of a string. On valid UTF-8 the bytewise order of Go's
string comparison is the lexicographic order of the code points. -/
def codes (s : String) : List Nat := s.toList.map Char.toNat

/-- Go's `a < b` on strings. -/
def strLt (a b : String) : Bool := lexLt (codes a) (codes b)

/-- Go's `a <= b` on strings. -/
def strLe (a b : String) : Prop := strLt b a = false

instance (a b : String) : Decidable (strLe a b) := by
  unfold strLe; infer_instance

/-- The call `sort.Strings(keys)`: the keys in increasing order. -/
def sortStrings (keys : List String) : List String :=
  keys.insertionSort strLe

/-! ## Histograms -/

/-- Modelled from the spec: the latency histogram that `newHistogram` builds
(the file that defines it is not among the sources). The spec keeps it opaque:
it records duration samples and is summarised on demand. Its state is the list
of the samples recorded so far, oldest first. -/
structure Histogram where
  samples : List Int
deriving DecidableEq, Repr

/-- Modelled from the spec: `newHistogram(p)`, a histogram without samples. -/
def newHistogram (_p : Properties) : Histogram := ⟨[]⟩

/-- Modelled from the spec: `Measure(duration)` of a histogram records the
sample. -/
def Histogram.Measure (h : Histogram) (lan : Int) : Histogram :=
  ⟨h.samples ++ [lan]⟩

/-- Number of samples a histogram holds. -/
def Histogram.count (h : Histogram) : Nat := h.samples.length

/-- A float64, kept as its bit pattern: no arithmetic is done on it. -/
structure Float64 where
  bits : Nat
deriving DecidableEq, Repr

/-- A value of type `interface{}` as `MeasurementInfo.Get` returns it. -/
inductive Value where
  | float64 (x : Float64)
  | int64 (n : Int)
  | str (s : String)
  | nil
deriving DecidableEq, Repr

/-- Modelled from the spec: a `ycsb.MeasurementInfo`, the named fields of a
summary. -/
abbrev MeasurementInfo := List (String × Value)

/-- Modelled from the spec: `Get(metricName)`, nil for a field that does not
exist. -/
def MeasurementInfo.Get (info : MeasurementInfo) (metricName : String) : Value :=
  match info.lookup metricName with
  | some v => v
  | none => Value.nil

/-! ## The world around the registry -/

/-- A value handed to `Gauge.Update`: a float64 as it is, or the conversion
`float64(n)` of an int64. -/
inductive GaugeValue where
  | float (x : Float64)
  | ofInt64 (n : Int)
deriving DecidableEq, Repr

/-- What `output` does to the outside: a write to standard output, or
`scope.Tagged(tags).Gauge(name).Update(v)`. -/
inductive Event where
  | print (text : String)
  | gauge (scope : String) (tags : List (String × String)) (name : String)
      (v : GaugeValue)
deriving DecidableEq, Repr

/-- The collaborators of `output`: the two summarising methods of the
histogram, whose arithmetic is opaque (`none` is a panic), the environment
variable `KEY_PREFIX` (empty when unset) and the scopes of package `metrics`
(`none` is the nil scope before `InitializeMetrics`). -/
structure Collab where
  Summary : Histogram → Option String
  Info : Histogram → Option MeasurementInfo
  KEY_PREFIX : String
  ThroughputScope : Option String
  ResptimeScope : Option String

/-- The function `metrics.InitializeMetrics`: the throughput and response
scopes are the sub-scopes of the root scope named so. -/
def InitializeMetrics (c : Collab) : Collab :=
  { c with ThroughputScope := some "throughput", ResptimeScope := some "response" }

/-! ## The registry -/

/-- The Go map `map[string]ycsb.Measurement`: operation name to the address of
its histogram. -/
abbrev OpMap := List (String × Nat)

/-- The assignment `m[k] = v`. -/
def OpMap.insert : OpMap → String → Nat → OpMap
  | [], k, v => [(k, v)]
  | (k', v') :: rest, k, v =>
    if k' = k then (k, v) :: rest else (k', v') :: OpMap.insert rest k v

/-- The names in the map, in iteration order. -/
def OpMap.keys (m : OpMap) : List String := m.map Prod.fst

/-- The struct `measurement` (its lock is left out: the calls here run one
after the other). -/
structure measurement where
  p : Properties
  opMeasurement : OpMap
deriving DecidableEq, Repr

/-- The histograms allocated so far; a pointer to a histogram is its index. -/
abbrev Heap := List Histogram

/-- The call `opM.Measure(lan)` through the pointer `a`. -/
def Heap.record : Heap → Nat → Int → Heap
  | [], _, _ => []
  | h :: hs, 0, lan => h.Measure lan :: hs
  | h :: hs, a + 1, lan => h :: Heap.record hs a lan

/-- The method `measurement.measure`. -/
def measurement.measure (heap : Heap) (m : measurement) (op : String) (lan : Int) :
    Heap × measurement :=
  match m.opMeasurement.lookup op with
  | some opM => (heap.record opM lan, m)
  | none =>
    let opM := heap.length
    let heap1 := heap ++ [newHistogram m.p]
    let m1 := { m with opMeasurement := m.opMeasurement.insert op opM }
    (heap1.record opM lan, m1)

/-- The verb `%-6s`: the string, then blanks up to a width of six runes. -/
def padRight6 (s : String) : String :=
  s ++ String.mk (List.replicate (6 - s.length) ' ')

/-- The text of `fmt.Printf("%-6s - %s\n", op, summary)`. -/
def reportLine (op summary : String) : String :=
  padRight6 op ++ " - " ++ summary ++ "\n"

/-- The key prefix label of `output`: `KEY_PREFIX`, or the placeholder when
that is empty. -/
def keyPrefix (c : Collab) : String :=
  if c.KEY_PREFIX = "" then "default_keyprefix" else c.KEY_PREFIX

/-- The update `ThroughputScope.Tagged({op, key_prefix}).Gauge("qps").Update(qps)`
on the scope `ts`. -/
def qpsGauge (c : Collab) (ts op : String) (qps : Float64) : Event :=
  Event.gauge ts [("op", op), ("key_prefix", keyPrefix c)] "qps" (GaugeValue.float qps)

/-- The update
`ResptimeScope.Tagged({op, key_prefix, quantile}).Gauge("time").Update(float64(v))`
on the scope `rs`. -/
def timeGauge (c : Collab) (rs op quantile : String) (v : Int) : Event :=
  Event.gauge rs [("op", op), ("key_prefix", keyPrefix c), ("quantile", quantile)] "time"
    (GaugeValue.ofInt64 v)

/-- One turn of the loop of `output` for the name `op`: the events it emits,
and whether it ended in a panic. A histogram pointer that is not in the heap
counts as nil. -/
def outputOp (c : Collab) (heap : Heap) (m : measurement) (op : String) :
    List Event × Bool :=
  match m.opMeasurement.lookup op with
  | none => ([], false)
  | some meas =>
    match ((m.opMeasurement.lookup op).bind (fun a => heap[a]?)).bind c.Summary with
    | none => ([], true)
    | some summary =>
      let line := Event.print (reportLine op summary)
      match heap[meas]?.bind c.Info with
      | none => ([line], true)
      | some info =>
        match info.Get "QPS", info.Get "PER50TH", info.Get "PER95TH", info.Get "PER99TH" with
        | Value.float64 qps, Value.int64 p50, Value.int64 p95, Value.int64 p99 =>
          match c.ThroughputScope, c.ResptimeScope with
          | none, _ => ([line], true)
          | some ts, none => ([line, qpsGauge c ts op qps], true)
          | some ts, some rs =>
            ([line, qpsGauge c ts op qps, timeGauge c rs op "0.5" p50,
              timeGauge c rs op "0.95" p95, timeGauge c rs op "0.99" p99], false)
        | _, _, _, _ => ([line], true)

/-- The loop `for _, op := range keys` of `output`: it stops at the first
panic. -/
def outputLoop (c : Collab) (heap : Heap) (m : measurement) :
    List String → List Event × Bool
  | [] => ([], false)
  | op :: rest =>
    match outputOp c heap m op with
    | (evs, true) => (evs, true)
    | (evs, false) =>
      ((evs ++ (outputLoop c heap m rest).1), (outputLoop c heap m rest).2)

/-- The body of `output` below its two `defer` statements: collect the keys,
sort them, loop. -/
def outputBody (c : Collab) (heap : Heap) (m : measurement) : List Event × Bool :=
  outputLoop c heap m (sortStrings m.opMeasurement.keys)

/-- The method `measurement.output`: the deferred function recovers a panic
of the body and prints RECOVERED, so the method returns in both cases. -/
def measurement.output (c : Collab) (heap : Heap) (m : measurement) : List Event :=
  match outputBody c heap m with
  | (evs, true) => evs ++ [Event.print "RECOVERED\n"]
  | (evs, false) => evs

/-- The loop `for op, opM := range m.opMeasurement` of `info`. -/
def infoLoop (c : Collab) (heap : Heap) :
    OpMap → Option (List (String × MeasurementInfo))
  | [] => some []
  | (op, opM) :: rest =>
    match heap[opM]?.bind c.Info with
    | none => none
    | some i =>
      match infoLoop c heap rest with
      | none => none
      | some r => some ((op, i) :: r)

/-- The method `measurement.info`; `none` when the `Info` of a histogram
panics, which nothing here recovers. -/
def measurement.info (c : Collab) (heap : Heap) (m : measurement) :
    Option (List (String × MeasurementInfo)) :=
  infoLoop c heap m.opMeasurement

/-- The method `measurement.getOpName`. -/
def measurement.getOpName (m : measurement) : List String :=
  m.opMeasurement.keys

/-! ## The package level -/

/-- The package variables `globalMeasure` and `warmUp`, and the heap of
histograms. -/
structure Global where
  heap : Heap
  globalMeasure : Option measurement
  warmUp : Int
deriving DecidableEq, Repr

/-- The state at program start: nothing allocated, `globalMeasure` nil,
`warmUp` zero. -/
def Global.start : Global := ⟨[], none, 0⟩

/-- The function `EnableWarmUp`. -/
def EnableWarmUp (g : Global) (b : Bool) : Global :=
  if b then { g with warmUp := 1 } else { g with warmUp := 0 }

/-- The function `IsWarmUpFinished`. -/
def IsWarmUpFinished (g : Global) : Bool :=
  decide (g.warmUp = 0)

/-- The function `InitMeasure`. -/
def InitMeasure (g : Global) (p : Properties) : Global :=
  EnableWarmUp { g with globalMeasure := some ⟨p, []⟩ }
    (decide (p.GetInt64 WarmUpTime 0 > 0))

/-- The function `Measure`; `none` is the nil dereference of a call before
`InitMeasure`. -/
def Measure (g : Global) (op : String) (lan : Int) : Option Global :=
  if IsWarmUpFinished g then
    match g.globalMeasure with
    | none => none
    | some m =>
      some { g with heap := (m.measure g.heap op lan).1,
                    globalMeasure := some (m.measure g.heap op lan).2 }
  else some g

/-- The function `Output`; `none` is the nil dereference of a call before
`InitMeasure`, which happens ahead of the `defer` statements. -/
def Output (c : Collab) (g : Global) : Option (List Event) :=
  match g.globalMeasure with
  | none => none
  | some m => some (m.output c g.heap)

/-- The function `Info`; `none` is a panic. -/
def Info (c : Collab) (g : Global) : Option (List (String × MeasurementInfo)) :=
  match g.globalMeasure with
  | none => none
  | some m => m.info c g.heap

/-- The function `GetOpNames`; `none` is a panic. -/
def GetOpNames (g : Global) : Option (List String) :=
  match g.globalMeasure with
  | none => none
  | some m => some m.getOpName

/-! ## Sequences of calls -/

/-- The calls `Measure(op, lan)` of a list, one after the other. -/
def MeasureAll : Global → List (String × Int) → Option Global
  | g, [] => some g
  | g, (op, lan) :: rest =>
    match Measure g op lan with
    | none => none
    | some g1 => MeasureAll g1 rest

/-- The samples held by the histogram that the map `om` registers for `op`,
none when the name is not registered. -/
def registrySamples (heap : Heap) (om : OpMap) (op : String) : List Int :=
  match om.lookup op with
  | none => []
  | some a =>
    match heap[a]? with
    | none => []
    | some h => h.samples

/-- The samples held by the histogram registered for `op` in the global
registry. -/
def samplesOf (g : Global) (op : String) : List Int :=
  match g.globalMeasure with
  | none => []
  | some m => registrySamples g.heap m.opMeasurement op

/-- The histogram pointer registered for `op`. -/
def histogramOf (g : Global) (op : String) : Option Nat :=
  match g.globalMeasure with
  | none => none
  | some m => m.opMeasurement.lookup op

/-- A call of the package interface by the driver or a worker. -/
inductive Call where
  | Measure (op : String) (lan : Int)
  | Info
  | GetOpNames
  | Output
  | EnableWarmUp (b : Bool)
deriving DecidableEq, Repr

/-- The state after one call; `none` when the call panics. -/
def exec (c : Collab) (g : Global) : Call → Option Global
  | Call.Measure op lan => Measure g op lan
  | Call.Info => (Info c g).map (fun _ => g)
  | Call.GetOpNames => (GetOpNames g).map (fun _ => g)
  | Call.Output => (Output c g).map (fun _ => g)
  | Call.EnableWarmUp b => some (EnableWarmUp g b)

/-- The state after a sequence of calls. -/
def run (c : Collab) : Global → List Call → Option Global
  | g, [] => some g
  | g, call :: rest =>
    match exec c g call with
    | none => none
    | some g1 => run c g1 rest

/-! ## Concurrent callers of `measure`

The steps of `measure` that the locks and the histogram make atomic: the
lookup under the read lock, the creation of a histogram, the insert under the
write lock, and the recording of the sample. -/

/-- The next step of a caller of `measure`. -/
inductive Pc where
  | lookup
  | create
  | insert (opM : Nat)
  | record (opM : Nat)
  | done
deriving DecidableEq, Repr

/-- A caller inside `measure(op, lan)`. -/
structure Caller where
  op : String
  lan : Int
  pc : Pc
deriving DecidableEq, Repr

/-- The registry shared by the callers, and the callers. -/
structure Conc where
  heap : Heap
  m : measurement
  callers : List Caller
deriving DecidableEq, Repr

/-- One atomic step of the caller `t`. -/
def stepCaller (heap : Heap) (m : measurement) (t : Caller) : Heap × measurement × Caller :=
  match t.pc with
  | Pc.lookup =>
    match m.opMeasurement.lookup t.op with
    | some opM => (heap, m, { t with pc := Pc.record opM })
    | none => (heap, m, { t with pc := Pc.create })
  | Pc.create => (heap ++ [newHistogram m.p], m, { t with pc := Pc.insert heap.length })
  | Pc.insert opM =>
    (heap, { m with opMeasurement := m.opMeasurement.insert t.op opM },
      { t with pc := Pc.record opM })
  | Pc.record opM => (heap.record opM t.lan, m, { t with pc := Pc.done })
  | Pc.done => (heap, m, t)

/-- The caller number `i` takes its next step. -/
def Conc.step (s : Conc) (i : Nat) : Conc :=
  match s.callers[i]? with
  | none => s
  | some t =>
    { heap := (stepCaller s.heap s.m t).1,
      m := (stepCaller s.heap s.m t).2.1,
      callers := s.callers.set i (stepCaller s.heap s.m t).2.2 }

/-- The steps of an interleaving, given as the list of the callers that move. -/
def Conc.run : Conc → List Nat → Conc
  | s, [] => s
  | s, i :: rest => Conc.run (s.step i) rest

/-- The state in which `n` callers are about to run `measure(op, lan)` on a
registry that holds no operation. -/
def Conc.fresh (p : Properties) (op : String) (lan : Int) (n : Nat) : Conc :=
  { heap := [], m := ⟨p, []⟩, callers := List.replicate n ⟨op, lan, Pc.lookup⟩ }

/-- The number of samples in the histogram registered for `op`. -/
def Conc.recorded (s : Conc) (op : String) : Option Nat :=
  match s.m.opMeasurement.lookup op with
  | none => none
  | some a => (s.heap[a]?).map Histogram.count

/-! ## Reading the report -/

/-- Whether an event is a line on standard output. -/
def Event.isPrint : Event → Bool
  | Event.print _ => true
  | Event.gauge _ _ _ _ => false

/-- Whether an event is a gauge update tagged with the operation `op`. -/
def Event.isGaugeOf (op : String) : Event → Bool
  | Event.print _ => false
  | Event.gauge _ tags _ _ => decide (tags.lookup "op" = some op)

/-- The summary string of the histogram registered for `op`; empty when
there is none. -/
def summaryOf (c : Collab) (heap : Heap) (m : measurement) (op : String) : String :=
  match ((m.opMeasurement.lookup op).bind (fun a => heap[a]?)).bind c.Summary with
  | some s => s
  | none => ""

/-- A collaborator for the examples: metrics initialised, no `KEY_PREFIX`,
a histogram summarised by its count and its first sample; a histogram whose
first sample is negative has a summary that panics. -/
def sampleCollab : Collab :=
  InitializeMetrics
    { Summary := fun h => if h.samples.headD 0 < 0 then none else some "ok",
      Info := fun h => some [("QPS", Value.float64 ⟨h.count⟩),
        ("PER50TH", Value.int64 (h.samples.headD 0)),
        ("PER95TH", Value.int64 (h.samples.headD 0)),
        ("PER99TH", Value.int64 (h.samples.headD 0))],
      KEY_PREFIX := "",
      ThroughputScope := none,
      ResptimeScope := none }

/-- The names of the `Measure` calls of a sequence that warm-up does not drop;
`finished` is the value of `IsWarmUpFinished()` before the first call. -/
def measuredNames : Bool → List Call → List String
  | _, [] => []
  | finished, Call.Measure op _ :: rest =>
    if finished then op :: measuredNames finished rest else measuredNames finished rest
  | _, Call.EnableWarmUp b :: rest => measuredNames (!b) rest
  | finished, Call.Info :: rest => measuredNames finished rest
  | finished, Call.GetOpNames :: rest => measuredNames finished rest
  | finished, Call.Output :: rest => measuredNames finished rest

/-- The value of `IsWarmUpFinished()` after a call, given its value before. -/
def finishedAfter (finished : Bool) : Call → Bool
  | Call.EnableWarmUp b => !b
  | _ => finished

/-! ## Well-formed states -/

/-- The registry is well formed over the heap: distinct names, every pointer
allocated, and no histogram shared by two names. -/
structure WF (heap : Heap) (om : OpMap) : Prop where
  nodup : om.keys.Nodup
  bound : ∀ k a, om.lookup k = some a → a < heap.length
  inj : ∀ k k' a, om.lookup k = some a → om.lookup k' = some a → k = k'

/-- The state is initialised, warm-up is over and the registry is well
formed. -/
structure Recording (g : Global) : Prop where
  finished : g.warmUp = 0
  init : ∃ m, g.globalMeasure = some m ∧ WF g.heap m.opMeasurement

/-- The registry exists and is well formed. -/
def Initialised (g : Global) : Prop :=
  ∃ m, g.globalMeasure = some m ∧ WF g.heap m.opMeasurement

end Measurement

/-!
# The S3 adapter

A shallow embedding of `db/s3/db.go` and `db/s3/encoding.go`. The S3 service is
the in-memory bucket that the tests of the adapter run against: a finite map
from object key to payload, listed in ascending key order. The msgpack codec
is a parameter.
-/

namespace S3

open Measurement

/-! ## Data -/

/-- A byte slice `[]byte`; the nil slice and the empty slice are both the
empty list. -/
abbrev ByteSlice := List UInt8

/-- A map `map[string][]byte` that is not nil: the entries, with distinct
keys. -/
abbrev Fields := List (String × ByteSlice)

/-- A value of type `map[string][]byte`; `none` is the nil map. -/
abbrev Values := Option Fields

/-- The assignment `m[k] = v`. -/
def Fields.set : Fields → String → ByteSlice → Fields
  | [], k, v => [(k, v)]
  | (k', v') :: rest, k, v =>
    if k' = k then (k, v) :: rest else (k', v') :: Fields.set rest k v

/-- The entries of a map; a nil map has none. -/
def entries : Values → Fields
  | none => []
  | some m => m

/-- The index expression `v, ok := m[f]`; reading a nil map finds nothing. -/
def index (m : Values) (f : String) : Option ByteSlice :=
  (entries m).lookup f

/-- The msgpack encoder and decoder of `github.com/ugorji/go/codec`, as used
through `enc.Encode` and `dec.Decode`; `none` is an error. -/
structure Codec where
  Encode : Values → Option ByteSlice
  Decode : ByteSlice → Option Values

/-- The function `encodeValues`; `none` is the error return. -/
def encodeValues (cd : Codec) (values : Values) : Option ByteSlice :=
  match cd.Encode values with
  | none => none
  | some encoded => some encoded

/-- The function `decodeValues`; `none` is the error return. -/
def decodeValues (cd : Codec) (data : ByteSlice) : Option Values :=
  match cd.Decode data with
  | none => none
  | some m => some m

/-! ## The S3 service -/

/-- The objects of the bucket: object key to payload, with distinct keys. -/
abbrev Bucket := List (String × ByteSlice)

/-- The object keys of the bucket. -/
def Bucket.keys (b : Bucket) : List String := b.map Prod.fst

/-- The request `PutObject`: the object is stored under the key, replacing
what was there; an empty key is rejected. -/
def PutObject (b : Bucket) (key : String) (body : ByteSlice) : Option Bucket :=
  if key = "" then none else some (Fields.set b key body)

/-- The request `GetObject`: the payload under the key, an error when there is
none. -/
def GetObject (b : Bucket) (key : String) : Option ByteSlice :=
  b.lookup key

/-- The request `DeleteObject`. -/
def DeleteObject (b : Bucket) (key : String) : Option Bucket :=
  some (b.filter (fun e => e.1 ≠ key))

/-- Whether `key` starts with `pfx`. -/
def hasPrefix (key pfx : String) : Bool :=
  pfx.toList.isPrefixOf key.toList

/-- The keys of the bucket that start with `pfx` and come after `startAfter`,
in ascending order: what `ListObjectsV2` enumerates. -/
def listing (b : Bucket) (pfx startAfter : String) : List String :=
  (sortStrings b.keys).filter (fun k => hasPrefix k pfx && strLt startAfter k)

/-- The result of `ListObjectsV2`. The continuation token is opaque to the
client; here it is the part of the listing that is still to come. -/
structure ListObjectsV2Output where
  Contents : List String
  IsTruncated : Bool
  NextContinuationToken : Option (List String)
deriving DecidableEq, Repr

/-- The request `ListObjectsV2`: the next `maxKeys` keys of the listing, from
its start or from where the continuation token stands. A negative `maxKeys` is
an error and zero stands for the default of 1000. -/
def ListObjectsV2 (b : Bucket) (pfx startAfter : String) (contToken : Option (List String))
    (maxKeys : Int) : Option ListObjectsV2Output :=
  if maxKeys < 0 then none
  else
    let pending :=
      match contToken with
      | some rest => rest
      | none => listing b pfx startAfter
    let n := if maxKeys = 0 then 1000 else maxKeys.toNat
    some { Contents := pending.take n,
           IsTruncated := decide (n < pending.length),
           NextContinuationToken := if n < pending.length then some (pending.drop n) else none }

/-! ## The adapter -/

/-- The struct `s3DB`, without the client and the bucket name. -/
structure s3DB where
  updateOverwrite : Bool
  scanKeysOnly : Bool
deriving DecidableEq, Repr

/-- The method `composeObjectKey`. -/
def composeObjectKey (table key : String) : String :=
  if table = "" then key else table ++ "/" ++ key

/-- The method `Read`; `none` is the error return, `some none` a nil map
without error. -/
def Read (cd : Codec) (b : Bucket) (table key : String) (fields : List String) :
    Option Values :=
  match GetObject b (composeObjectKey table key) with
  | none => none
  | some payload =>
    match decodeValues cd payload with
    | none => none
    | some allValues =>
      if fields.length > 0 then
        some (some (fields.foldl
          (fun filtered f =>
            match index allValues f with
            | some v => Fields.set filtered f v
            | none => filtered) []))
      else some allValues

/-- The method `Insert`: the bucket after the call, `none` when it returns an
error. -/
def Insert (cd : Codec) (b : Bucket) (table key : String) (values : Values) :
    Option Bucket :=
  match encodeValues cd values with
  | none => none
  | some payload => PutObject b (composeObjectKey table key) payload

/-- The method `Delete`. -/
def Delete (b : Bucket) (table key : String) : Option Bucket :=
  DeleteObject b (composeObjectKey table key)

/-- The loop `for k, v := range values { existing[k] = v }` of `Update`. -/
def overlay (existing : Fields) (values : Values) : Fields :=
  (entries values).foldl (fun ex e => Fields.set ex e.1 e.2) existing

/-- The method `Update`: the bucket after the call, `none` when it returns an
error. -/
def Update (cd : Codec) (db : s3DB) (b : Bucket) (table key : String) (values : Values) :
    Option Bucket :=
  if !db.updateOverwrite then
    let existing :=
      match Read cd b table key [] with
      | some (some m) => m
      | _ => []
    Insert cd b table key (some (overlay existing values))
  else Insert cd b table key values

/-- The conversion `int32(n)` of an int. -/
def toInt32 (n : Int) : Int :=
  (n + 2 ^ 31) % 2 ^ 32 - 2 ^ 31

/-- The record key of an object key in `Scan`: the key without the table
part when it properly starts with it. -/
def recordKeyOf (pfx key : String) : String :=
  if pfx ≠ "" ∧ key.length > pfx.length ∧ hasPrefix key pfx = true
  then String.mk (key.toList.drop pfx.length) else key

/-- The loop `for _, obj := range out.Contents` of `Scan`: the values of
`remaining` and `results` when it is left. -/
def scanPage (cd : Codec) (db : s3DB) (b : Bucket) (table : String) (fields : List String)
    (pfx startAfter : String) : List String → Int → List Values → Int × List Values
  | [], remaining, results => (remaining, results)
  | key :: rest, remaining, results =>
    if remaining = 0 then (remaining, results)
    else if key = startAfter then
      scanPage cd db b table fields pfx startAfter rest remaining results
    else if db.scanKeysOnly then
      scanPage cd db b table fields pfx startAfter rest (remaining - 1)
        (results ++ [some [(recordKeyOf pfx key, [])]])
    else
      match Read cd b table (recordKeyOf pfx key) fields with
      | none => scanPage cd db b table fields pfx startAfter rest remaining results
      | some rec =>
        scanPage cd db b table fields pfx startAfter rest (remaining - 1) (results ++ [rec])

/-- How a call ends: with a result, with an error, or not within the steps
granted to it. -/
inductive Outcome (α : Type) where
  | ok (a : α)
  | error
  | outOfFuel
deriving DecidableEq, Repr

/-- The loop `for remaining > 0` of `Scan`, run for at most `fuel` rounds. -/
def scanLoop (cd : Codec) (db : s3DB) (b : Bucket) (table : String) (fields : List String)
    (pfx startAfter : String) :
    Nat → Option (List String) → Int → List Values → Outcome (List Values)
  | 0, _, _, _ => Outcome.outOfFuel
  | fuel + 1, contToken, remaining, results =>
    if remaining > 0 then
      let maxKeys := if toInt32 remaining > 1000 then 1000 else toInt32 remaining
      match ListObjectsV2 b pfx startAfter contToken maxKeys with
      | none => Outcome.error
      | some out =>
        if out.Contents.length = 0 then Outcome.ok results
        else
          let r := scanPage cd db b table fields pfx startAfter out.Contents remaining results
          if !out.IsTruncated || r.1 = 0 then Outcome.ok r.2
          else scanLoop cd db b table fields pfx startAfter fuel out.NextContinuationToken
            r.1 r.2
    else Outcome.ok results

/-- The results of `Scan` before the listing: the record of the start key. -/
def scanStart (cd : Codec) (db : s3DB) (b : Bucket) (table startKey : String)
    (fields : List String) : List Values :=
  if startKey ≠ "" then
    if db.scanKeysOnly then [some [(startKey, [])]]
    else
      match Read cd b table startKey fields with
      | some (some rec) => [some rec]
      | _ => []
  else []

/-- The method `Scan`. Every round of its loop but the last moves past one
key of the bucket at least, so one round more than the bucket has keys is
granted. -/
def Scan (cd : Codec) (db : s3DB) (b : Bucket) (table startKey : String) (count : Int)
    (fields : List String) : Outcome (List Values) :=
  if count ≤ 0 then Outcome.ok []
  else
    let results := scanStart cd db b table startKey fields
    if startKey ≠ "" ∧ (results.length : Int) ≥ count then Outcome.ok results
    else
      let pfx := if table ≠ "" then table ++ "/" else ""
      let startAfter := composeObjectKey table startKey
      scanLoop cd db b table fields pfx startAfter (b.length + 1) none
        (count - results.length) results

/-! ## Reading the results -/

/-- The map that `Update` stores for a record that reads as `old`. -/
def updated (db : s3DB) (old values : Values) : Values :=
  if db.updateOverwrite then values else some (overlay (entries old) values)

/-- The record that the loop of `Scan` appends for an object key; `none` when
the read of the object fails and the key is skipped. -/
def scanRecord (cd : Codec) (db : s3DB) (b : Bucket) (table : String) (fields : List String)
    (pfx key : String) : Option Values :=
  if db.scanKeysOnly then some (some [(recordKeyOf pfx key, [])])
  else Read cd b table (recordKeyOf pfx key) fields

/-- The keys that a request with the given continuation token has still to
list. -/
def pendingKeys (b : Bucket) (pfx startAfter : String) : Option (List String) → List String
  | some rest => rest
  | none => listing b pfx startAfter

/-- The part of the object keys of a table that `Scan` lists by. -/
def tablePrefix (table : String) : String :=
  if table ≠ "" then table ++ "/" else ""

/-- An object key without its first `pfx.length` characters. -/
def stripPrefix (pfx key : String) : String :=
  String.mk (key.toList.drop pfx.length)

/-- The record keys of a table: the object keys that start with the table
part, without it. -/
def recordKeys (b : Bucket) (table : String) : List String :=
  (b.keys.filter (fun k => hasPrefix k (tablePrefix table))).map
    (stripPrefix (tablePrefix table))

/-- The record keys of a table that are not below `startKey`, in ascending
order. -/
def recordKeysFrom (b : Bucket) (table startKey : String) : List String :=
  sortStrings ((recordKeys b table).filter (fun rk => !strLt rk startKey))

/-! ## A codec for the examples -/

/-- A raw value of at most 31 bytes in msgpack: the length in the low bits of
the first byte. -/
def encRaw (bs : ByteSlice) : Option ByteSlice :=
  if bs.length < 32 then some (UInt8.ofNat (0xa0 + bs.length) :: bs) else none

/-- The bytes of a string of ASCII characters. -/
def asciiBytes (s : String) : Option ByteSlice :=
  if s.toList.all (fun c => c.toNat < 128) then some (s.toList.map (fun c => UInt8.ofNat c.toNat))
  else none

/-- The entries of a map in msgpack, one after the other. -/
def encEntries : Fields → Option ByteSlice
  | [] => some []
  | (k, v) :: rest =>
    match (asciiBytes k).bind encRaw, encRaw v, encEntries rest with
    | some kb, some vb, some rb => some (kb ++ vb ++ rb)
    | _, _, _ => none

/-- The reading of a raw value: the value and the bytes after it. -/
def decRaw : ByteSlice → Option (ByteSlice × ByteSlice)
  | [] => none
  | h :: rest =>
    if 0xa0 ≤ h.toNat ∧ h.toNat < 0xc0 ∧ h.toNat - 0xa0 ≤ rest.length then
      some (rest.take (h.toNat - 0xa0), rest.drop (h.toNat - 0xa0))
    else none

/-- The reading of `n` entries: the entries and the bytes after them. -/
def decEntries : Nat → ByteSlice → Option (Fields × ByteSlice)
  | 0, bs => some ([], bs)
  | n + 1, bs =>
    match decRaw bs with
    | none => none
    | some (k, bs1) =>
      match decRaw bs1 with
      | none => none
      | some (v, bs2) =>
        match decEntries n bs2 with
        | none => none
        | some (es, bs3) =>
          some ((String.mk (k.map (fun x => Char.ofNat x.toNat)), v) :: es, bs3)

/-- A codec for the examples: msgpack for the nil map and for maps of fewer
than 16 entries whose keys are ASCII and whose keys and values are shorter than
32 bytes; other maps are an encoding error. -/
def sampleCodec : Codec where
  Encode := fun values =>
    match values with
    | none => some [0xc0]
    | some m =>
      if m.length < 16 then (encEntries m).map (fun bs => UInt8.ofNat (0x80 + m.length) :: bs)
      else none
  Decode := fun data =>
    match data with
    | [] => none
    | h :: rest =>
      if h = 0xc0 ∧ rest = [] then some none
      else if 0x80 ≤ h.toNat ∧ h.toNat < 0x90 then
        match decEntries (h.toNat - 0x80) rest with
        | some (es, []) => some (some es)
        | _ => none
      else none

end S3

/-!
# The FoundationDB adapter

The row keys of `db/foundationdb/db.go`. A row key is the byte slice of a
string (`util.Slice`); it is kept as that string and compared as FoundationDB
compares keys, byte by byte.
-/

namespace FoundationDB

open Measurement

/-- The method `getRowKey`: the text of `fmt.Sprintf("%s:%s", table, key)`. -/
def getRowKey (table key : String) : String :=
  table ++ ":" ++ key

/-- The method `getEndRowKey`: the text of `fmt.Sprintf("%s;", table)`. -/
def getEndRowKey (table : String) : String :=
  table ++ ";"

/-- An `fdb.KeyRange`: the keys from `Begin` on that are below `End`. -/
structure KeyRange where
  Begin : String
  End : String
deriving DecidableEq, Repr

/-- Whether a key lies in a range: not below `Begin`, and below `End`. -/
def KeyRange.contains (r : KeyRange) (k : String) : Bool :=
  !strLt k r.Begin && strLt k r.End

/-- The range that `Scan` reads for a table and a start key. -/
def scanRange (table startKey : String) : KeyRange :=
  { Begin := getRowKey table startKey, End := getEndRowKey table }

end FoundationDB


namespace Measurement

/-! ## Facts about the order of strings -/

theorem lexLt_irrefl (a : List Nat) : lexLt a a = false := by
  induction a with
  | nil => rfl
  | cons x xs ih => simp [lexLt, ih]

theorem lexLt_trans : ∀ a b c : List Nat, lexLt a b = true → lexLt b c = true →
    lexLt a c = true
  | [], [], _, h, _ => by simp [lexLt] at h
  | [], _ :: _, [], _, h => by simp [lexLt] at h
  | [], _ :: _, _ :: _, _, _ => by simp [lexLt]
  | _ :: _, [], _, h, _ => by simp [lexLt] at h
  | _ :: _, _ :: _, [], _, h => by simp [lexLt] at h
  | x :: xs, y :: ys, z :: zs, h1, h2 => by
    simp only [lexLt] at h1 h2 ⊢
    by_cases hxy : x < y
    · by_cases hyz : y < z
      · simp [show x < z by omega]
      · by_cases hzy : z < y
        · simp [hyz, hzy] at h2
        · have : y = z := by omega
          subst this
          simp [hxy]
    · by_cases hyx : y < x
      · simp [hxy, hyx] at h1
      · have : x = y := by omega
        subst this
        simp only [hxy, if_false] at h1
        by_cases hxz : x < z
        · simp [hxz]
        · by_cases hzx : z < x
          · simp [hxz, hzx] at h2
          · simp only [hxz, hzx, if_false] at h2 ⊢
            exact lexLt_trans xs ys zs h1 h2

theorem lexLt_tri : ∀ a b : List Nat, lexLt a b = false → lexLt b a = false → a = b
  | [], [], _, _ => rfl
  | [], _ :: _, h, _ => by simp [lexLt] at h
  | _ :: _, [], _, h => by simp [lexLt] at h
  | x :: xs, y :: ys, h1, h2 => by
    simp only [lexLt] at h1 h2
    by_cases hxy : x < y
    · simp [hxy] at h1
    · by_cases hyx : y < x
      · simp [hyx] at h2
      · have : x = y := by omega
        subst this
        simp only [hxy, if_false] at h1 h2
        rw [lexLt_tri xs ys h1 h2]

theorem codes_injective (a b : String) (h : codes a = codes b) : a = b := by
  have inj : Function.Injective Char.toNat := fun x y e => Char.ext (UInt32.ext e)
  exact String.ext (List.map_injective_iff.2 inj h)

theorem strLt_irrefl (a : String) : strLt a a = false := lexLt_irrefl _

theorem strLt_trans (a b c : String) (h1 : strLt a b = true) (h2 : strLt b c = true) :
    strLt a c = true := lexLt_trans _ _ _ h1 h2

theorem strLt_tri (a b : String) (h1 : strLt a b = false) (h2 : strLt b a = false) : a = b :=
  codes_injective a b (lexLt_tri _ _ h1 h2)

theorem strLt_asymm (a b : String) (h : strLt a b = true) : strLt b a = false := by
  cases h' : strLt b a with
  | false => rfl
  | true =>
    have := strLt_trans a b a h h'
    rw [strLt_irrefl] at this
    cases this

instance : IsTotal String strLe :=
  ⟨fun a b => by
    unfold strLe
    cases h : strLt b a with
    | false => exact Or.inl rfl
    | true => exact Or.inr (strLt_asymm b a h)⟩

instance : IsTrans String strLe :=
  ⟨fun a b c hab hbc => by
    unfold strLe at *
    cases h : strLt c a with
    | false => rfl
    | true =>
      cases hab' : strLt a b with
      | false =>
        have e := strLt_tri a b hab' hab
        subst e
        rw [h] at hbc; cases hbc
      | true =>
        have := strLt_trans c a b h hab'
        rw [this] at hbc; cases hbc⟩

instance : IsAntisymm String strLe :=
  ⟨fun a b hab hba => strLt_tri a b hba hab⟩

theorem sortStrings_perm (l : List String) : (sortStrings l).Perm l :=
  List.perm_insertionSort _ l

theorem sortStrings_sorted (l : List String) : (sortStrings l).Sorted strLe :=
  List.sorted_insertionSort _ l

theorem sortStrings_congr (l l' : List String) (h : l.Perm l') :
    sortStrings l = sortStrings l' :=
  List.eq_of_perm_of_sorted
    ((sortStrings_perm l).trans (h.trans (sortStrings_perm l').symm))
    (sortStrings_sorted l) (sortStrings_sorted l')

theorem sortStrings_strict (l : List String) (hn : l.Nodup) :
    (sortStrings l).Pairwise (fun a b => strLt a b = true) := by
  have hs : (sortStrings l).Pairwise strLe := sortStrings_sorted l
  have hn' : (sortStrings l).Pairwise (fun a b => a ≠ b) :=
    ((sortStrings_perm l).nodup_iff).2 hn
  refine (hs.and hn').imp ?_
  intro a b h
  obtain ⟨hle, hne⟩ := h
  cases hlt : strLt a b with
  | true => rfl
  | false => exact absurd (strLt_tri a b hlt hle) hne

/-! ## Facts about maps and heaps -/

theorem OpMap.lookup_insert_self (om : OpMap) (k : String) (v : Nat) :
    (om.insert k v).lookup k = some v := by
  induction om with
  | nil => simp [OpMap.insert, List.lookup]
  | cons e rest ih =>
    obtain ⟨k', v'⟩ := e
    by_cases h : k' = k
    · simp [OpMap.insert, h, List.lookup]
    · have h' : (k == k') = false := by simpa using fun e => h e.symm
      simp [OpMap.insert, h, List.lookup, h', ih]

theorem OpMap.lookup_insert_ne (om : OpMap) (k k' : String) (v : Nat) (hne : k' ≠ k) :
    (om.insert k v).lookup k' = om.lookup k' := by
  induction om with
  | nil =>
    have h' : (k' == k) = false := by simpa using hne
    simp [OpMap.insert, List.lookup, h']
  | cons e rest ih =>
    obtain ⟨k1, v1⟩ := e
    by_cases h : k1 = k
    · subst h
      have h' : (k' == k1) = false := by simpa using hne
      simp [OpMap.insert, List.lookup, h']
    · simp only [OpMap.insert, h, if_false, List.lookup]
      cases (k' == k1) <;> simp [ih]

theorem OpMap.lookup_eq_none_iff (om : OpMap) (k : String) :
    om.lookup k = none ↔ k ∉ om.keys := by
  induction om with
  | nil => simp [OpMap.keys]
  | cons e rest ih =>
    obtain ⟨k1, v1⟩ := e
    by_cases h : k = k1
    · subst h; simp [List.lookup, OpMap.keys]
    · have h' : (k == k1) = false := by simpa using h
      simp only [List.lookup, h']
      rw [ih]
      simp [OpMap.keys, h]

theorem OpMap.keys_insert_of_mem (om : OpMap) (k : String) (v : Nat) (h : k ∈ om.keys) :
    (om.insert k v).keys = om.keys := by
  induction om with
  | nil => simp [OpMap.keys] at h
  | cons e rest ih =>
    obtain ⟨k1, v1⟩ := e
    by_cases h1 : k1 = k
    · subst h1; simp [OpMap.insert, OpMap.keys]
    · have hr : k ∈ OpMap.keys rest := by
        simp only [OpMap.keys, List.map_cons, List.mem_cons] at h
        rcases h with h | h
        · exact absurd h.symm h1
        · exact h
      have := ih hr
      simp only [OpMap.keys] at this
      simp [OpMap.insert, h1, OpMap.keys, this]

theorem OpMap.keys_insert_of_not_mem (om : OpMap) (k : String) (v : Nat) (h : k ∉ om.keys) :
    (om.insert k v).keys = om.keys ++ [k] := by
  induction om with
  | nil => simp [OpMap.insert, OpMap.keys]
  | cons e rest ih =>
    obtain ⟨k1, v1⟩ := e
    have h1 : k1 ≠ k := by
      intro e; apply h; simp [OpMap.keys, e]
    have hr : k ∉ OpMap.keys rest := by
      intro hk; apply h; simp only [OpMap.keys, List.map_cons, List.mem_cons]
      exact Or.inr hk
    have := ih hr
    simp only [OpMap.keys] at this
    simp [OpMap.insert, h1, OpMap.keys, this]

theorem Heap.length_record (heap : Heap) (a : Nat) (lan : Int) :
    (heap.record a lan).length = heap.length := by
  induction heap generalizing a with
  | nil => simp [Heap.record]
  | cons h hs ih =>
    cases a with
    | zero => simp [Heap.record]
    | succ a => simp [Heap.record, ih]

theorem Heap.get_record_self (heap : Heap) (a : Nat) (lan : Int) :
    (heap.record a lan)[a]? = (heap[a]?).map (fun h => h.Measure lan) := by
  induction heap generalizing a with
  | nil => simp [Heap.record]
  | cons h hs ih =>
    cases a with
    | zero => simp [Heap.record]
    | succ a => simp [Heap.record, ih]

theorem Heap.get_record_ne (heap : Heap) (a b : Nat) (lan : Int) (hne : b ≠ a) :
    (heap.record a lan)[b]? = heap[b]? := by
  induction heap generalizing a b with
  | nil => simp [Heap.record]
  | cons h hs ih =>
    cases a with
    | zero =>
      cases b with
      | zero => exact absurd rfl hne
      | succ b => simp [Heap.record]
    | succ a =>
      cases b with
      | zero => simp [Heap.record]
      | succ b =>
        simp only [Heap.record, List.getElem?_cons_succ]
        exact ih a b (fun e => hne (by rw [e]))

/-! ## The sequential `measure` -/

theorem measure_hit (heap : Heap) (m : measurement) (op : String) (lan : Int) (a : Nat)
    (h : m.opMeasurement.lookup op = some a) :
    m.measure heap op lan = (heap.record a lan, m) := by
  simp [measurement.measure, h]

theorem measure_miss (heap : Heap) (m : measurement) (op : String) (lan : Int)
    (h : m.opMeasurement.lookup op = none) :
    m.measure heap op lan =
      (heap ++ [(newHistogram m.p).Measure lan],
        { m with opMeasurement := m.opMeasurement.insert op heap.length }) := by
  have hrec : ∀ (hp : Heap) (x : Histogram),
      Heap.record (hp ++ [x]) hp.length lan = hp ++ [x.Measure lan] := by
    intro hp x
    induction hp with
    | nil => simp [Heap.record]
    | cons y ys ih => simp [Heap.record, ih]
  simp [measurement.measure, h, hrec]

theorem measure_keeps_p (heap : Heap) (m : measurement) (op : String) (lan : Int) :
    (m.measure heap op lan).2.p = m.p := by
  cases h : m.opMeasurement.lookup op with
  | none => rw [measure_miss heap m op lan h]
  | some a => rw [measure_hit heap m op lan a h]

theorem measure_wf (heap : Heap) (m : measurement) (op : String) (lan : Int)
    (wf : WF heap m.opMeasurement) :
    WF (m.measure heap op lan).1 (m.measure heap op lan).2.opMeasurement := by
  cases h : m.opMeasurement.lookup op with
  | some a =>
    rw [measure_hit heap m op lan a h]
    exact ⟨wf.nodup, fun k b hk => by rw [Heap.length_record]; exact wf.bound k b hk, wf.inj⟩
  | none =>
    rw [measure_miss heap m op lan h]
    have hnot : op ∉ m.opMeasurement.keys := (OpMap.lookup_eq_none_iff _ _).1 h
    have look : ∀ k b, (m.opMeasurement.insert op heap.length).lookup k = some b →
        (k = op ∧ b = heap.length) ∨ (k ≠ op ∧ m.opMeasurement.lookup k = some b) := by
      intro k b hk
      by_cases e : k = op
      · subst e
        rw [OpMap.lookup_insert_self] at hk
        exact Or.inl ⟨rfl, (Option.some.inj hk).symm⟩
      · rw [OpMap.lookup_insert_ne _ _ _ _ e] at hk
        exact Or.inr ⟨e, hk⟩
    refine ⟨?_, ?_, ?_⟩
    · show (m.opMeasurement.insert op heap.length).keys.Nodup
      rw [OpMap.keys_insert_of_not_mem _ _ _ hnot]
      exact List.Nodup.append wf.nodup (List.nodup_singleton op) (by
        intro x hx hx'
        rw [List.mem_singleton] at hx'
        exact hnot (hx' ▸ hx))
    · intro k b hk
      rcases look k b hk with ⟨_, hb⟩ | ⟨_, hb⟩
      · simp [hb]
      · have := wf.bound k b hb
        simp only [List.length_append, List.length_singleton]
        omega
    · intro k k' b hk hk'
      rcases look k b hk with ⟨e1, hb⟩ | ⟨_, hb⟩
      · rcases look k' b hk' with ⟨e2, _⟩ | ⟨_, hb'⟩
        · rw [e1, e2]
        · have := wf.bound k' b hb'
          omega
      · rcases look k' b hk' with ⟨_, hb'⟩ | ⟨_, hb'⟩
        · have := wf.bound k b hb
          omega
        · exact wf.inj k k' b hb hb'

theorem measure_samples (heap : Heap) (m : measurement) (op : String) (lan : Int)
    (wf : WF heap m.opMeasurement) (op' : String) :
    registrySamples (m.measure heap op lan).1 (m.measure heap op lan).2.opMeasurement op' =
      registrySamples heap m.opMeasurement op' ++ (if op' = op then [lan] else []) := by
  cases h : m.opMeasurement.lookup op with
  | some a =>
    rw [measure_hit heap m op lan a h]
    have ha := wf.bound op a h
    by_cases e : op' = op
    · subst e
      simp only [registrySamples, h, Heap.get_record_self, if_true]
      rw [List.getElem?_eq_getElem ha]
      simp [Histogram.Measure]
    · simp only [registrySamples, e, if_false, List.append_nil]
      cases h' : m.opMeasurement.lookup op' with
      | none => rfl
      | some b =>
        have hne : b ≠ a := fun eb => e (wf.inj op' op a (eb ▸ h') h)
        simp only [Heap.get_record_ne heap a b lan hne]
  | none =>
    rw [measure_miss heap m op lan h]
    by_cases e : op' = op
    · subst e
      simp [registrySamples, h, OpMap.lookup_insert_self, newHistogram, Histogram.Measure]
    · simp only [registrySamples, e, if_false, List.append_nil,
        OpMap.lookup_insert_ne _ _ _ _ e]
      cases h' : m.opMeasurement.lookup op' with
      | none => rfl
      | some b =>
        have hb := wf.bound op' b h'
        simp only [List.getElem?_append_left hb]

/-! ## Sequences of `Measure` calls -/

theorem Measure_recording (g : Global) (op : String) (lan : Int) (hg : Recording g) :
    ∃ g1, Measure g op lan = some g1 ∧ Recording g1 ∧
      ∀ op', samplesOf g1 op' = samplesOf g op' ++ (if op' = op then [lan] else []) := by
  obtain ⟨hw, m, hm, wf⟩ := hg
  refine ⟨{ g with heap := (m.measure g.heap op lan).1,
                   globalMeasure := some (m.measure g.heap op lan).2 },
    by simp [Measure, IsWarmUpFinished, hw, hm], ⟨hw, _, rfl, measure_wf _ _ _ _ wf⟩, ?_⟩
  intro op'
  simp only [samplesOf, hm]
  exact measure_samples _ _ _ _ wf op'

theorem MeasureAll_recording (calls : List (String × Int)) (g : Global) (hg : Recording g) :
    ∃ g1, MeasureAll g calls = some g1 ∧ Recording g1 ∧
      ∀ op, samplesOf g1 op =
        samplesOf g op ++ (calls.filter (fun e => e.1 = op)).map Prod.snd := by
  induction calls generalizing g with
  | nil => exact ⟨g, rfl, hg, fun op => by simp⟩
  | cons e rest ih =>
    obtain ⟨op0, lan⟩ := e
    obtain ⟨g1, h1, r1, s1⟩ := Measure_recording g op0 lan hg
    obtain ⟨g2, h2, r2, s2⟩ := ih g1 r1
    refine ⟨g2, by simp [MeasureAll, h1, h2], r2, ?_⟩
    intro op
    rw [s2 op, s1 op]
    by_cases e : op0 = op
    · subst e; simp
    · have e' : ¬ op = op0 := fun h => e h.symm
      simp [e, e']

theorem MeasureAll_warmUp (calls : List (String × Int)) (g : Global)
    (h : IsWarmUpFinished g = false) : MeasureAll g calls = some g := by
  induction calls with
  | nil => rfl
  | cons e rest ih =>
    obtain ⟨op, lan⟩ := e
    simp [MeasureAll, Measure, h, ih]

theorem wf_empty (heap : Heap) : WF heap [] :=
  ⟨by simp [OpMap.keys], by simp, by simp⟩

theorem EnableWarmUp_globalMeasure (g : Global) (b : Bool) :
    (EnableWarmUp g b).globalMeasure = g.globalMeasure := by
  cases b <;> rfl

theorem EnableWarmUp_heap (g : Global) (b : Bool) : (EnableWarmUp g b).heap = g.heap := by
  cases b <;> rfl

theorem EnableWarmUp_warmUp (g : Global) (b : Bool) :
    (EnableWarmUp g b).warmUp = if b then 1 else 0 := by
  cases b <;> rfl

theorem InitMeasure_globalMeasure (g : Global) (p : Properties) :
    (InitMeasure g p).globalMeasure = some ⟨p, []⟩ := by
  simp [InitMeasure, EnableWarmUp_globalMeasure]

theorem InitMeasure_heap (g : Global) (p : Properties) : (InitMeasure g p).heap = g.heap := by
  simp [InitMeasure, EnableWarmUp_heap]

theorem InitMeasure_initialised (g : Global) (p : Properties) :
    Initialised (InitMeasure g p) :=
  ⟨⟨p, []⟩, InitMeasure_globalMeasure g p, wf_empty _⟩

/-- What one `Measure` call does to the pointers of the registry. -/
theorem Measure_pointers (g g1 : Global) (op : String) (lan : Int) (hi : Initialised g)
    (h : Measure g op lan = some g1) :
    Initialised g1 ∧ g.heap.length ≤ g1.heap.length ∧
      (∀ k a, histogramOf g k = some a → histogramOf g1 k = some a) ∧
      (∀ k a, histogramOf g k = none → histogramOf g1 k = some a →
        k = op ∧ a = g.heap.length) := by
  obtain ⟨m, hm, wf⟩ := hi
  by_cases hw : IsWarmUpFinished g = true
  · simp only [Measure, hw, if_true, hm, Option.some.injEq] at h
    subst h
    refine ⟨⟨_, rfl, measure_wf _ _ _ _ wf⟩, ?_, ?_, ?_⟩
    · cases hl : m.opMeasurement.lookup op with
      | none => rw [measure_miss _ _ _ _ hl]; simp
      | some a => rw [measure_hit _ _ _ _ _ hl]; simp [Heap.length_record]
    · intro k a hk
      simp only [histogramOf, hm] at hk ⊢
      cases hl : m.opMeasurement.lookup op with
      | none =>
        rw [measure_miss _ _ _ _ hl]
        have hne : k ≠ op := fun e => by rw [e, hl] at hk; cases hk
        simpa [OpMap.lookup_insert_ne _ _ _ _ hne] using hk
      | some b => rw [measure_hit _ _ _ _ _ hl]; exact hk
    · intro k a hk hk1
      simp only [histogramOf, hm] at hk hk1
      cases hl : m.opMeasurement.lookup op with
      | none =>
        rw [measure_miss _ _ _ _ hl] at hk1
        by_cases e : k = op
        · subst e
          simp only [OpMap.lookup_insert_self, Option.some.injEq] at hk1
          exact ⟨rfl, hk1.symm⟩
        · simp only [OpMap.lookup_insert_ne _ _ _ _ e, hk] at hk1
          cases hk1
      | some b =>
        rw [measure_hit _ _ _ _ _ hl] at hk1
        rw [hk] at hk1; cases hk1
  · simp only [Measure, hw, Bool.false_eq_true, if_false, Option.some.injEq] at h
    subst h
    exact ⟨⟨m, hm, wf⟩, le_refl _, fun _ _ h => h,
      fun k a h0 h1 => by rw [h0] at h1; cases h1⟩

/-- What one call of the interface does to the pointers of the registry. -/
theorem exec_pointers (c : Collab) (g g1 : Global) (call : Call) (hi : Initialised g)
    (h : exec c g call = some g1) :
    Initialised g1 ∧ g.heap.length ≤ g1.heap.length ∧
      (∀ k a, histogramOf g k = some a → histogramOf g1 k = some a) ∧
      (∀ k a, histogramOf g k = none → histogramOf g1 k = some a →
        (∃ lan, call = Call.Measure k lan) ∧ a = g.heap.length) := by
  have same : g1 = g → Initialised g1 ∧ g.heap.length ≤ g1.heap.length ∧
      (∀ k a, histogramOf g k = some a → histogramOf g1 k = some a) ∧
      (∀ k a, histogramOf g k = none → histogramOf g1 k = some a →
        (∃ lan, call = Call.Measure k lan) ∧ a = g.heap.length) := by
    intro e
    subst e
    exact ⟨hi, le_refl _, fun _ _ h => h, fun k a h0 h1 => by rw [h0] at h1; cases h1⟩
  cases call with
  | Measure op lan =>
    obtain ⟨i1, l1, k1, n1⟩ := Measure_pointers g g1 op lan hi h
    exact ⟨i1, l1, k1, fun k a h0 h1 => ⟨⟨lan, by rw [(n1 k a h0 h1).1]⟩, (n1 k a h0 h1).2⟩⟩
  | Info =>
    simp only [exec, Option.map_eq_some'] at h
    obtain ⟨_, _, e⟩ := h
    exact same e.symm
  | GetOpNames =>
    simp only [exec, Option.map_eq_some'] at h
    obtain ⟨_, _, e⟩ := h
    exact same e.symm
  | Output =>
    simp only [exec, Option.map_eq_some'] at h
    obtain ⟨_, _, e⟩ := h
    exact same e.symm
  | EnableWarmUp b =>
    simp only [exec, Option.some.injEq] at h
    subst h
    obtain ⟨m, hm, wf⟩ := hi
    refine ⟨⟨m, by rw [EnableWarmUp_globalMeasure, hm], by rw [EnableWarmUp_heap]; exact wf⟩,
      by rw [EnableWarmUp_heap], ?_, ?_⟩
    · intro k a hk
      simpa [histogramOf, EnableWarmUp_globalMeasure] using hk
    · intro k a h0 h1
      simp only [histogramOf, EnableWarmUp_globalMeasure] at h0 h1
      rw [h0] at h1; cases h1

/-- What a sequence of calls does to the pointers of the registry. -/
theorem run_pointers (c : Collab) (calls : List Call) (g g1 : Global) (hi : Initialised g)
    (h : run c g calls = some g1) :
    Initialised g1 ∧ g.heap.length ≤ g1.heap.length ∧
      (∀ k a, histogramOf g k = some a → histogramOf g1 k = some a) ∧
      (∀ k a, histogramOf g k = none → histogramOf g1 k = some a →
        (∃ lan, Call.Measure k lan ∈ calls) ∧ g.heap.length ≤ a) := by
  induction calls generalizing g with
  | nil =>
    simp only [run, Option.some.injEq] at h
    subst h
    exact ⟨hi, le_refl _, fun _ _ h => h, fun k a h0 h1 => by rw [h0] at h1; cases h1⟩
  | cons call rest ih =>
    cases he : exec c g call with
    | none => simp [run, he] at h
    | some g' =>
      simp only [run, he] at h
      obtain ⟨i1, l1, k1, n1⟩ := exec_pointers c g g' call hi he
      obtain ⟨i2, l2, k2, n2⟩ := ih g' i1 h
      refine ⟨i2, le_trans l1 l2, fun k a hk => k2 k a (k1 k a hk), ?_⟩
      intro k a h0 h1
      cases hmid : histogramOf g' k with
      | none =>
        obtain ⟨⟨lan, hl⟩, hb⟩ := n2 k a hmid h1
        exact ⟨⟨lan, List.mem_cons_of_mem _ hl⟩, le_trans l1 hb⟩
      | some b =>
        obtain ⟨⟨lan, hl⟩, hb⟩ := n1 k b h0 hmid
        have := k2 k b hmid
        rw [h1] at this
        cases this
        exact ⟨⟨lan, by rw [hl]; exact List.mem_cons_self _ _⟩, by omega⟩

/-! ## Facts about `output` -/

/-- A turn of the loop that does not panic emits the line of the operation and
its four gauge updates, with the values of the histogram's `Info`. -/
theorem outputOp_ok (c : Collab) (heap : Heap) (m : measurement) (op : String) (a : Nat)
    (hl : m.opMeasurement.lookup op = some a) (hok : (outputOp c heap m op).2 = false) :
    ∃ info qps p50 p95 p99 ts rs,
      heap[a]?.bind c.Info = some info ∧
      MeasurementInfo.Get info "QPS" = Value.float64 qps ∧
      MeasurementInfo.Get info "PER50TH" = Value.int64 p50 ∧
      MeasurementInfo.Get info "PER95TH" = Value.int64 p95 ∧
      MeasurementInfo.Get info "PER99TH" = Value.int64 p99 ∧
      c.ThroughputScope = some ts ∧ c.ResptimeScope = some rs ∧
      (outputOp c heap m op).1 =
        [Event.print (reportLine op (summaryOf c heap m op)), qpsGauge c ts op qps,
          timeGauge c rs op "0.5" p50, timeGauge c rs op "0.95" p95,
          timeGauge c rs op "0.99" p99] := by
  unfold outputOp at hok ⊢
  simp only [hl] at hok ⊢
  split at hok
  · simp at hok
  · rename_i summary hs
    split at hok
    · simp at hok
    · rename_i info hi
      split at hok
      · rename_i qps p50 p95 p99 h1 h2 h3 h4
        split at hok
        · simp at hok
        · simp at hok
        · rename_i ts rs hts hrs
          refine ⟨info, qps, p50, p95, p99, ts, rs, hi, h1, h2, h3, h4, hts, hrs, ?_⟩
          simp only [hi, h1, h2, h3, h4, hts, hrs, summaryOf, hl]
          rw [hs]
      · simp at hok

/-- A turn of the loop for a name that is not registered does nothing. -/
theorem outputOp_absent (c : Collab) (heap : Heap) (m : measurement) (op : String)
    (hl : m.opMeasurement.lookup op = none) : outputOp c heap m op = ([], false) := by
  simp [outputOp, hl]

/-- Turns that do not panic emit their events in order, and the loop goes on
with the names that follow. -/
theorem outputLoop_append (c : Collab) (heap : Heap) (m : measurement)
    (pre rest : List String)
    (hok : ∀ op ∈ pre, (outputOp c heap m op).2 = false) :
    outputLoop c heap m (pre ++ rest) =
      (pre.flatMap (fun op => (outputOp c heap m op).1) ++ (outputLoop c heap m rest).1,
        (outputLoop c heap m rest).2) := by
  induction pre with
  | nil => simp
  | cons k ks ih =>
    have hk := hok k (List.mem_cons_self _ _)
    have hr := ih (fun op h => hok op (List.mem_cons_of_mem _ h))
    cases hO : outputOp c heap m k with
    | mk evs b =>
      rw [hO] at hk
      simp only at hk
      subst hk
      simp [outputLoop, hO, hr]

/-- A loop in which no turn panics emits the events of its turns in order. -/
theorem outputLoop_ok (c : Collab) (heap : Heap) (m : measurement) (ks : List String)
    (hok : ∀ op ∈ ks, (outputOp c heap m op).2 = false) :
    outputLoop c heap m ks = (ks.flatMap (fun op => (outputOp c heap m op).1), false) := by
  have := outputLoop_append c heap m ks [] hok
  simpa [outputLoop] using this

/-- A loop whose first panic is in the turn of `bad` emits the events of the
turns before it and what `bad` emitted before the panic; no later turn runs. -/
theorem outputLoop_fault (c : Collab) (heap : Heap) (m : measurement)
    (pre post : List String) (bad : String)
    (hok : ∀ op ∈ pre, (outputOp c heap m op).2 = false)
    (hbad : (outputOp c heap m bad).2 = true) :
    outputLoop c heap m (pre ++ bad :: post) =
      (pre.flatMap (fun op => (outputOp c heap m op).1) ++ (outputOp c heap m bad).1,
        true) := by
  rw [outputLoop_append c heap m pre (bad :: post) hok]
  cases hO : outputOp c heap m bad with
  | mk evs b =>
    rw [hO] at hbad
    simp only at hbad
    subst hbad
    simp [outputLoop, hO]

/-- The gauge updates of a turn carry the name of the turn in the tag `op`. -/
theorem outputOp_gauge_tag (c : Collab) (heap : Heap) (m : measurement) (k op : String)
    (e : Event) (he : e ∈ (outputOp c heap m k).1) (hg : e.isGaugeOf op = true) : op = k := by
  unfold outputOp at he
  have tagq : ∀ ts qps, (qpsGauge c ts k qps).isGaugeOf op = true → op = k := by
    intro ts qps h
    simpa [qpsGauge, Event.isGaugeOf, List.lookup, eq_comm] using h
  have tagt : ∀ rs q v, (timeGauge c rs k q v).isGaugeOf op = true → op = k := by
    intro rs q v h
    simpa [timeGauge, Event.isGaugeOf, List.lookup, eq_comm] using h
  have line : ∀ s, (Event.print s).isGaugeOf op = true → op = k := by
    intro s h
    simp [Event.isGaugeOf] at h
  split at he
  · simp at he
  · split at he
    · simp at he
    · split at he
      · simp only [List.mem_singleton] at he
        subst he
        exact line _ hg
      · split at he
        · split at he
          · simp only [List.mem_singleton] at he
            subst he
            exact line _ hg
          · simp only [List.mem_cons, List.mem_singleton, List.not_mem_nil, or_false] at he
            rcases he with rfl | rfl
            · exact line _ hg
            · exact tagq _ _ hg
          · simp only [List.mem_cons, List.mem_singleton, List.not_mem_nil, or_false] at he
            rcases he with rfl | rfl | rfl | rfl | rfl
            · exact line _ hg
            · exact tagq _ _ hg
            · exact tagt _ _ _ hg
            · exact tagt _ _ _ hg
            · exact tagt _ _ _ hg
        · simp only [List.mem_singleton] at he
          subst he
          exact line _ hg

/-- The gauge updates of a loop carry the names of its turns. -/
theorem outputLoop_gauge_tag (c : Collab) (heap : Heap) (m : measurement) (op : String)
    (ks : List String) (e : Event) (he : e ∈ (outputLoop c heap m ks).1)
    (hg : e.isGaugeOf op = true) : op ∈ ks := by
  induction ks with
  | nil => simp [outputLoop] at he
  | cons k rest ih =>
    cases hO : outputOp c heap m k with
    | mk evs b =>
      cases b with
      | true =>
        simp only [outputLoop, hO] at he
        have : e ∈ (outputOp c heap m k).1 := by rw [hO]; exact he
        rw [outputOp_gauge_tag c heap m k op e this hg]
        exact List.mem_cons_self _ _
      | false =>
        simp only [outputLoop, hO, List.mem_append] at he
        rcases he with he | he
        · have : e ∈ (outputOp c heap m k).1 := by rw [hO]; exact he
          rw [outputOp_gauge_tag c heap m k op e this hg]
          exact List.mem_cons_self _ _
        · exact List.mem_cons_of_mem _ (ih he)

/-- With distinct names, the binding of a name is the pair listed for it. -/
theorem OpMap.lookup_eq_some_iff (om : OpMap) (hn : om.keys.Nodup) (k : String) (a : Nat) :
    om.lookup k = some a ↔ (k, a) ∈ om := by
  induction om with
  | nil => simp
  | cons e rest ih =>
    obtain ⟨k1, v1⟩ := e
    simp only [OpMap.keys, List.map_cons, List.nodup_cons] at hn
    by_cases h : k = k1
    · subst h
      simp only [List.lookup, beq_self_eq_true, Option.some.injEq, List.mem_cons, Prod.mk.injEq,
        true_and]
      constructor
      · intro e; exact Or.inl e.symm
      · rintro (e | hm)
        · exact e.symm
        · exact absurd (List.mem_map_of_mem Prod.fst hm) hn.1
    · have h' : (k == k1) = false := by simpa using h
      simp only [List.lookup, h', List.mem_cons, Prod.mk.injEq, h, false_and, false_or]
      exact ih hn.2

/-- The iteration order of the map does not change what a lookup finds. -/
theorem OpMap.lookup_perm (om om' : OpMap) (hp : om'.Perm om) (hn : om.keys.Nodup)
    (k : String) : om'.lookup k = om.lookup k := by
  have hn' : om'.keys.Nodup := ((hp.map Prod.fst).nodup_iff).2 hn
  cases h : om.lookup k with
  | none =>
    rw [OpMap.lookup_eq_none_iff] at h ⊢
    intro hk
    exact h (((hp.map Prod.fst).mem_iff).1 hk)
  | some a =>
    rw [OpMap.lookup_eq_some_iff _ hn] at h
    rw [OpMap.lookup_eq_some_iff _ hn']
    exact (hp.mem_iff).2 h

/-- The method `output` does not depend on the iteration order of the map. -/
theorem output_perm (c : Collab) (heap : Heap) (m m' : measurement)
    (hp : m'.opMeasurement.Perm m.opMeasurement) (hn : m.opMeasurement.keys.Nodup) :
    m'.output c heap = m.output c heap := by
  have hop : ∀ op, outputOp c heap m' op = outputOp c heap m op := by
    intro op
    unfold outputOp
    rw [OpMap.lookup_perm _ _ hp hn op]
  have hloop : ∀ ks, outputLoop c heap m' ks = outputLoop c heap m ks := by
    intro ks
    induction ks with
    | nil => rfl
    | cons k rest ih => simp only [outputLoop, hop, ih]
  have hk : sortStrings m'.opMeasurement.keys = sortStrings m.opMeasurement.keys :=
    sortStrings_congr _ _ (hp.map Prod.fst)
  simp only [measurement.output, outputBody, hloop, hk]

/-- Every registered name is looked up with success. -/
theorem OpMap.lookup_of_mem_keys (om : OpMap) (k : String) (h : k ∈ om.keys) :
    ∃ a, om.lookup k = some a := by
  cases hl : om.lookup k with
  | none => exact absurd h ((OpMap.lookup_eq_none_iff om k).1 hl)
  | some a => exact ⟨a, rfl⟩

/-- The lines printed by turns that do not panic: one per name, in the order
of the names. -/
theorem printed_lines (c : Collab) (heap : Heap) (m : measurement) (ks : List String)
    (hin : ∀ op ∈ ks, op ∈ m.opMeasurement.keys)
    (hok : ∀ op ∈ ks, (outputOp c heap m op).2 = false) :
    (ks.flatMap (fun op => (outputOp c heap m op).1)).filter Event.isPrint =
      ks.map (fun op => Event.print (reportLine op (summaryOf c heap m op))) := by
  induction ks with
  | nil => rfl
  | cons k rest ih =>
    obtain ⟨a, ha⟩ := OpMap.lookup_of_mem_keys _ k (hin k (List.mem_cons_self _ _))
    obtain ⟨info, qps, p50, p95, p99, ts, rs, _, _, _, _, _, _, _, hev⟩ :=
      outputOp_ok c heap m k a ha (hok k (List.mem_cons_self _ _))
    have hr := ih (fun op h => hin op (List.mem_cons_of_mem _ h))
      (fun op h => hok op (List.mem_cons_of_mem _ h))
    simp only [List.flatMap_cons, List.filter_append, List.map_cons, hr, hev]
    simp [List.filter, Event.isPrint, qpsGauge, timeGauge]

/-- A turn that panics has emitted nothing, or its line, or its line and its
first gauge update. -/
theorem outputOp_fault_cases (c : Collab) (heap : Heap) (m : measurement) (k : String)
    (hbad : (outputOp c heap m k).2 = true) :
    (outputOp c heap m k).1 = [] ∨ (∃ s, (outputOp c heap m k).1 = [Event.print s]) ∨
      ∃ s ts q, (outputOp c heap m k).1 = [Event.print s, qpsGauge c ts k q] := by
  unfold outputOp at hbad ⊢
  split
  · exact Or.inl rfl
  · rename_i a hl
    simp only [hl] at hbad
    split
    · exact Or.inl rfl
    · rename_i summary hs
      simp only [hl] at hs
      simp only [hs] at hbad
      split
      · exact Or.inr (Or.inl ⟨_, rfl⟩)
      · rename_i info hi
        simp only [hi] at hbad
        split
        · rename_i qps p50 p95 p99 h1 h2 h3 h4
          simp only [h1, h2, h3, h4] at hbad
          split
          · exact Or.inr (Or.inl ⟨_, rfl⟩)
          · exact Or.inr (Or.inr ⟨_, _, _, rfl⟩)
          · rename_i ts rs hts hrs
            simp [hts, hrs] at hbad
        · exact Or.inr (Or.inl ⟨_, rfl⟩)

/-- The turn of another name pushes no gauge tagged `op`. -/
theorem outputOp_gauges_other (c : Collab) (heap : Heap) (m : measurement) (k op : String)
    (hne : op ≠ k) : (outputOp c heap m k).1.filter (Event.isGaugeOf op) = [] := by
  rw [List.filter_eq_nil_iff]
  intro e he hg
  exact hne (outputOp_gauge_tag c heap m k op e he hg)

/-- Turns of other names push no gauge tagged `op`. -/
theorem flatMap_gauges_other (c : Collab) (heap : Heap) (m : measurement) (ks : List String)
    (op : String) (hop : op ∉ ks) :
    (ks.flatMap (fun k => (outputOp c heap m k).1)).filter (Event.isGaugeOf op) = [] := by
  rw [List.filter_eq_nil_iff]
  intro e he hg
  rw [List.mem_flatMap] at he
  obtain ⟨k, hk, hek⟩ := he
  have := outputOp_gauge_tag c heap m k op e hek hg
  exact hop (this ▸ hk)

/-- A loop over other names pushes no gauge tagged `op`. -/
theorem outputLoop_gauges_other (c : Collab) (heap : Heap) (m : measurement)
    (ks : List String) (op : String) (hop : op ∉ ks) :
    (outputLoop c heap m ks).1.filter (Event.isGaugeOf op) = [] := by
  rw [List.filter_eq_nil_iff]
  intro e he hg
  exact hop (outputLoop_gauge_tag c heap m op ks e he hg)

/-- The gauge updates of `output` are those of its body. -/
theorem output_gauges (c : Collab) (heap : Heap) (m : measurement) (op : String) :
    (m.output c heap).filter (Event.isGaugeOf op) =
      (outputBody c heap m).1.filter (Event.isGaugeOf op) := by
  unfold measurement.output
  cases hB : outputBody c heap m with
  | mk evs b =>
    cases b with
    | true => simp [List.filter_append, Event.isGaugeOf, List.filter]
    | false => rfl

/-- The gauge updates tagged `op` in a loop that reaches the turn of `op` are
those of that turn. -/
theorem outputLoop_gauges_reached (c : Collab) (heap : Heap) (m : measurement)
    (pre post : List String) (op : String) (hn : (pre ++ op :: post).Nodup)
    (hok : ∀ k ∈ pre, (outputOp c heap m k).2 = false) :
    (outputLoop c heap m (pre ++ op :: post)).1.filter (Event.isGaugeOf op) =
      (outputOp c heap m op).1.filter (Event.isGaugeOf op) := by
  have hpre : op ∉ pre := by
    intro h
    have := (List.nodup_append.1 hn).2.2
    exact this h (List.mem_cons_self _ _)
  have hpost : op ∉ post := by
    have := (List.nodup_append.1 hn).2.1
    exact (List.nodup_cons.1 this).1
  rw [outputLoop_append c heap m pre (op :: post) hok]
  simp only [List.filter_append, flatMap_gauges_other c heap m pre op hpre, List.nil_append]
  cases hO : outputOp c heap m op with
  | mk evs b =>
    cases b with
    | true => simp [outputLoop, hO]
    | false =>
      simp [outputLoop, hO, List.filter_append, outputLoop_gauges_other c heap m post op hpost]

/-- The four gauge updates of a turn that does not panic. -/
theorem outputOp_gauges_ok (c : Collab) (heap : Heap) (m : measurement) (op : String)
    (a : Nat) (hl : m.opMeasurement.lookup op = some a)
    (hok : (outputOp c heap m op).2 = false) :
    ∃ info qps p50 p95 p99 ts rs,
      heap[a]?.bind c.Info = some info ∧
      MeasurementInfo.Get info "QPS" = Value.float64 qps ∧
      MeasurementInfo.Get info "PER50TH" = Value.int64 p50 ∧
      MeasurementInfo.Get info "PER95TH" = Value.int64 p95 ∧
      MeasurementInfo.Get info "PER99TH" = Value.int64 p99 ∧
      c.ThroughputScope = some ts ∧ c.ResptimeScope = some rs ∧
      (outputOp c heap m op).1.filter (Event.isGaugeOf op) =
        [qpsGauge c ts op qps, timeGauge c rs op "0.5" p50, timeGauge c rs op "0.95" p95,
          timeGauge c rs op "0.99" p99] := by
  obtain ⟨info, qps, p50, p95, p99, ts, rs, h0, h1, h2, h3, h4, h5, h6, hev⟩ :=
    outputOp_ok c heap m op a hl hok
  refine ⟨info, qps, p50, p95, p99, ts, rs, h0, h1, h2, h3, h4, h5, h6, ?_⟩
  rw [hev]
  simp [List.filter, Event.isGaugeOf, qpsGauge, timeGauge, List.lookup]

/-- No call but `EnableWarmUp` writes the warm-up flag. -/
theorem exec_warmUp (c : Collab) (g g1 : Global) (call : Call)
    (hc : ∀ b, call ≠ Call.EnableWarmUp b) (h : exec c g call = some g1) :
    g1.warmUp = g.warmUp := by
  cases call with
  | Measure op lan =>
    simp only [exec, Measure] at h
    split at h
    · split at h
      · cases h
      · simp only [Option.some.injEq] at h
        subst h; rfl
    · simp only [Option.some.injEq] at h
      subst h; rfl
  | Info =>
    simp only [exec, Option.map_eq_some'] at h
    obtain ⟨_, _, e⟩ := h
    rw [e]
  | GetOpNames =>
    simp only [exec, Option.map_eq_some'] at h
    obtain ⟨_, _, e⟩ := h
    rw [e]
  | Output =>
    simp only [exec, Option.map_eq_some'] at h
    obtain ⟨_, _, e⟩ := h
    rw [e]
  | EnableWarmUp b => exact absurd rfl (hc b)

/-- No sequence of calls without `EnableWarmUp` writes the warm-up flag. -/
theorem run_warmUp (c : Collab) (calls : List Call) (g g1 : Global)
    (hc : ∀ b, Call.EnableWarmUp b ∉ calls) (h : run c g calls = some g1) :
    g1.warmUp = g.warmUp := by
  induction calls generalizing g with
  | nil =>
    simp only [run, Option.some.injEq] at h
    rw [h]
  | cons call rest ih =>
    cases he : exec c g call with
    | none => simp [run, he] at h
    | some g' =>
      simp only [run, he] at h
      have h1 := exec_warmUp c g g' call
        (fun b e => hc b (by rw [e]; exact List.mem_cons_self _ _)) he
      have h2 := ih g' (fun b hb => hc b (List.mem_cons_of_mem _ hb)) h
      rw [h2, h1]

/-! ## The claims -/

/-- C1, on a concrete interleaving: two callers run `measure(op, lan)` for a
name the registry does not hold; both look the name up before either inserts.
Both callers finish, the registry ends with one entry for the name, and the
histogram of that entry holds one sample, not two: the histogram of the first
caller was overwritten and its sample went with it. -/
theorem C1_creation_race_loses_sample (p : Properties) (op : String) (lan : Int) :
    (Conc.run (Conc.fresh p op lan 2) [0, 1, 0, 1, 0, 1, 0, 1]).callers =
        [⟨op, lan, Pc.done⟩, ⟨op, lan, Pc.done⟩] ∧
      (Conc.run (Conc.fresh p op lan 2) [0, 1, 0, 1, 0, 1, 0, 1]).m.opMeasurement =
        [(op, 1)] ∧
      (Conc.run (Conc.fresh p op lan 2) [0, 1, 0, 1, 0, 1, 0, 1]).heap =
        [⟨[lan]⟩, ⟨[lan]⟩] ∧
      (Conc.run (Conc.fresh p op lan 2) [0, 1, 0, 1, 0, 1, 0, 1]).recorded op = some 1 := by
  have run8 : Conc.run (Conc.fresh p op lan 2) [0, 1, 0, 1, 0, 1, 0, 1] =
      ⟨[⟨[lan]⟩, ⟨[lan]⟩], ⟨p, [(op, 1)]⟩, [⟨op, lan, Pc.done⟩, ⟨op, lan, Pc.done⟩]⟩ := by
    have s1 : (Conc.fresh p op lan 2).step 0 =
        ⟨[], ⟨p, []⟩, [⟨op, lan, Pc.create⟩, ⟨op, lan, Pc.lookup⟩]⟩ := by
      simp [Conc.step, Conc.fresh, stepCaller, List.replicate]
    have s2 : Conc.step ⟨[], ⟨p, []⟩, [⟨op, lan, Pc.create⟩, ⟨op, lan, Pc.lookup⟩]⟩ 1 =
        ⟨[], ⟨p, []⟩, [⟨op, lan, Pc.create⟩, ⟨op, lan, Pc.create⟩]⟩ := by
      simp [Conc.step, stepCaller]
    have s3 : Conc.step ⟨[], ⟨p, []⟩, [⟨op, lan, Pc.create⟩, ⟨op, lan, Pc.create⟩]⟩ 0 =
        ⟨[⟨[]⟩], ⟨p, []⟩, [⟨op, lan, Pc.insert 0⟩, ⟨op, lan, Pc.create⟩]⟩ := by
      simp [Conc.step, stepCaller, newHistogram]
    have s4 : Conc.step ⟨[⟨[]⟩], ⟨p, []⟩, [⟨op, lan, Pc.insert 0⟩, ⟨op, lan, Pc.create⟩]⟩ 1 =
        ⟨[⟨[]⟩, ⟨[]⟩], ⟨p, []⟩, [⟨op, lan, Pc.insert 0⟩, ⟨op, lan, Pc.insert 1⟩]⟩ := by
      simp [Conc.step, stepCaller, newHistogram]
    have s5 : Conc.step
        ⟨[⟨[]⟩, ⟨[]⟩], ⟨p, []⟩, [⟨op, lan, Pc.insert 0⟩, ⟨op, lan, Pc.insert 1⟩]⟩ 0 =
        ⟨[⟨[]⟩, ⟨[]⟩], ⟨p, [(op, 0)]⟩, [⟨op, lan, Pc.record 0⟩, ⟨op, lan, Pc.insert 1⟩]⟩ := by
      simp [Conc.step, stepCaller, OpMap.insert]
    have s6 : Conc.step
        ⟨[⟨[]⟩, ⟨[]⟩], ⟨p, [(op, 0)]⟩, [⟨op, lan, Pc.record 0⟩, ⟨op, lan, Pc.insert 1⟩]⟩ 1 =
        ⟨[⟨[]⟩, ⟨[]⟩], ⟨p, [(op, 1)]⟩, [⟨op, lan, Pc.record 0⟩, ⟨op, lan, Pc.record 1⟩]⟩ := by
      simp [Conc.step, stepCaller, OpMap.insert]
    have s7 : Conc.step
        ⟨[⟨[]⟩, ⟨[]⟩], ⟨p, [(op, 1)]⟩, [⟨op, lan, Pc.record 0⟩, ⟨op, lan, Pc.record 1⟩]⟩ 0 =
        ⟨[⟨[lan]⟩, ⟨[]⟩], ⟨p, [(op, 1)]⟩, [⟨op, lan, Pc.done⟩, ⟨op, lan, Pc.record 1⟩]⟩ := by
      simp [Conc.step, stepCaller, Heap.record, Histogram.Measure]
    have s8 : Conc.step
        ⟨[⟨[lan]⟩, ⟨[]⟩], ⟨p, [(op, 1)]⟩, [⟨op, lan, Pc.done⟩, ⟨op, lan, Pc.record 1⟩]⟩ 1 =
        ⟨[⟨[lan]⟩, ⟨[lan]⟩], ⟨p, [(op, 1)]⟩, [⟨op, lan, Pc.done⟩, ⟨op, lan, Pc.done⟩]⟩ := by
      simp [Conc.step, stepCaller, Heap.record, Histogram.Measure]
    simp only [Conc.run, s1, s2, s3, s4, s5, s6, s7, s8]
  rw [run8]
  simp [Conc.recorded, Histogram.count, List.lookup]

/-- C2: while warm-up is active a `Measure` call returns the state as it
was, and so does any sequence of them: no histogram is created and no sample
is recorded. When warm-up was switched on right after `InitMeasure`, `Info()`
is empty after the calls and no name holds a sample. -/
theorem C2_warm_up_drops_samples (c : Collab) (g g0 : Global) (p : Properties)
    (calls : List (String × Int)) (h : IsWarmUpFinished g = false) :
    (∀ op lan, Measure g op lan = some g) ∧
      MeasureAll g calls = some g ∧
      (MeasureAll (EnableWarmUp (InitMeasure g0 p) true) calls).bind (Info c) = some [] ∧
      ∀ g1, MeasureAll (EnableWarmUp (InitMeasure g0 p) true) calls = some g1 →
        ∀ op, histogramOf g1 op = none ∧ samplesOf g1 op = [] := by
  have hw : IsWarmUpFinished (EnableWarmUp (InitMeasure g0 p) true) = false := by
    simp [IsWarmUpFinished, EnableWarmUp]
  refine ⟨fun op lan => by simp [Measure, h], MeasureAll_warmUp calls g h, ?_, ?_⟩
  · rw [MeasureAll_warmUp calls _ hw]
    simp [Info, EnableWarmUp_globalMeasure, InitMeasure_globalMeasure, measurement.info, infoLoop]
  · intro g1 h1 op
    rw [MeasureAll_warmUp calls _ hw] at h1
    cases h1
    simp [histogramOf, samplesOf, EnableWarmUp_globalMeasure, InitMeasure_globalMeasure,
      registrySamples]

theorem C2_warm_up_drops_samples_witness :
    (∀ op lan, Measure (InitMeasure Global.start [("warmuptime", "5")]) op lan =
        some (InitMeasure Global.start [("warmuptime", "5")])) ∧
      MeasureAll (InitMeasure Global.start [("warmuptime", "5")]) [("READ", 7), ("SCAN", 9)] =
        some (InitMeasure Global.start [("warmuptime", "5")]) :=
  ⟨(C2_warm_up_drops_samples ⟨fun _ => none, fun _ => none, "", none, none⟩
      (InitMeasure Global.start [("warmuptime", "5")]) Global.start []
      [("READ", 7), ("SCAN", 9)] (by decide)).1,
   (C2_warm_up_drops_samples ⟨fun _ => none, fun _ => none, "", none, none⟩
      (InitMeasure Global.start [("warmuptime", "5")]) Global.start []
      [("READ", 7), ("SCAN", 9)] (by decide)).2.1⟩

/-- C3: after `InitMeasure`, whatever was submitted while warm-up was active,
the `Measure` calls made once warm-up is disabled all return, and afterwards
the histogram of every name holds exactly the durations of the calls made with
that name, each once and in the order of the calls; so its count is the number
of those calls. Fifty calls during warm-up followed by fifty after it give a
count of fifty. The same holds right after an `InitMeasure` that left warm-up
disabled. -/
theorem C3_every_call_recorded_once (g0 : Global) (p : Properties)
    (during after : List (String × Int)) :
    ∃ g1 g2, MeasureAll (EnableWarmUp (InitMeasure g0 p) true) during = some g1 ∧
      MeasureAll (EnableWarmUp g1 false) after = some g2 ∧
      (∀ op, samplesOf g2 op = (after.filter (fun e => e.1 = op)).map Prod.snd) ∧
      (∀ op, (samplesOf g2 op).length = after.countP (fun e => e.1 = op)) ∧
      (during.length = 50 → (∃ d, after = List.replicate 50 ("READ", d)) →
        (samplesOf g2 "READ").length = 50) ∧
      (IsWarmUpFinished (InitMeasure g0 p) = true →
        ∃ g3, MeasureAll (InitMeasure g0 p) after = some g3 ∧
          ∀ op, samplesOf g3 op = (after.filter (fun e => e.1 = op)).map Prod.snd) := by
  have hw : IsWarmUpFinished (EnableWarmUp (InitMeasure g0 p) true) = false := by
    simp [IsWarmUpFinished, EnableWarmUp]
  have hrec : Recording (EnableWarmUp (EnableWarmUp (InitMeasure g0 p) true) false) := by
    refine ⟨by simp [EnableWarmUp], ⟨p, []⟩, ?_, wf_empty _⟩
    simp [EnableWarmUp_globalMeasure, InitMeasure_globalMeasure]
  obtain ⟨g2, h2, _, s2⟩ := MeasureAll_recording after _ hrec
  have s0 : ∀ op, samplesOf (EnableWarmUp (EnableWarmUp (InitMeasure g0 p) true) false) op
      = [] := by
    intro op
    simp [samplesOf, EnableWarmUp_globalMeasure, InitMeasure_globalMeasure, registrySamples]
  have key : ∀ op, samplesOf g2 op = (after.filter (fun e => e.1 = op)).map Prod.snd := by
    intro op; rw [s2 op, s0 op]; simp
  have cnt : ∀ op, (samplesOf g2 op).length = after.countP (fun e => e.1 = op) := by
    intro op; rw [key op, List.length_map, List.countP_eq_length_filter]
  refine ⟨_, g2, MeasureAll_warmUp during _ hw, h2, key, cnt, ?_, ?_⟩
  · rintro - ⟨d, rfl⟩
    rw [cnt "READ"]
    simp [List.countP_replicate]
  · intro hfin
    have hrec3 : Recording (InitMeasure g0 p) :=
      ⟨by simpa [IsWarmUpFinished] using hfin, ⟨p, []⟩, InitMeasure_globalMeasure g0 p,
        wf_empty _⟩
    obtain ⟨g3, h3, _, s3⟩ := MeasureAll_recording after _ hrec3
    refine ⟨g3, h3, fun op => ?_⟩
    rw [s3 op]
    simp [samplesOf, InitMeasure_globalMeasure, registrySamples]

/-- C4: in every state reached from `InitMeasure` by `Measure`, `Info`,
`GetOpNames`, `Output` (and `EnableWarmUp`) calls the registry lists every name
once, each name points to an allocated histogram of its own, and later calls
keep that pointer: no call replaces or removes it. A name that gains a
histogram gains it through a `Measure` call for that name, and the histogram is
a new one; the first `Measure` call for a name outside warm-up creates it. -/
theorem C4_one_histogram_per_name (c : Collab) (g0 g1 g2 : Global) (p : Properties)
    (before later : List Call)
    (h1 : run c (InitMeasure g0 p) before = some g1)
    (h2 : run c g1 later = some g2) :
    (∃ m, g2.globalMeasure = some m ∧ m.opMeasurement.keys.Nodup ∧
        (∀ k a, m.opMeasurement.lookup k = some a → a < g2.heap.length) ∧
        (∀ k k' a, m.opMeasurement.lookup k = some a → m.opMeasurement.lookup k' = some a →
          k = k')) ∧
      (∀ op a, histogramOf g1 op = some a → histogramOf g2 op = some a) ∧
      (∀ op a, histogramOf g1 op = none → histogramOf g2 op = some a →
        (∃ lan, Call.Measure op lan ∈ later) ∧ g1.heap.length ≤ a) ∧
      (∀ op lan, IsWarmUpFinished g1 = true → histogramOf g1 op = none →
        ∃ g3, Measure g1 op lan = some g3 ∧ histogramOf g3 op = some g1.heap.length ∧
          g3.heap.length = g1.heap.length + 1) := by
  obtain ⟨i1, _, _, _⟩ := run_pointers c before _ g1 (InitMeasure_initialised g0 p) h1
  obtain ⟨⟨m2, hm2, wf2⟩, _, k2, n2⟩ := run_pointers c later g1 g2 i1 h2
  refine ⟨⟨m2, hm2, wf2.nodup, wf2.bound, wf2.inj⟩, k2, n2, ?_⟩
  intro op lan hw hnone
  obtain ⟨m, hm, wf⟩ := i1
  simp only [histogramOf, hm] at hnone
  refine ⟨{ g1 with heap := (m.measure g1.heap op lan).1,
                    globalMeasure := some (m.measure g1.heap op lan).2 },
    by simp only [Measure, hw, if_true, hm], ?_, ?_⟩
  · simp [histogramOf, measure_miss _ _ _ _ hnone, OpMap.lookup_insert_self]
  · simp [measure_miss _ _ _ _ hnone]

theorem C4_one_histogram_per_name_witness :
    histogramOf ⟨[⟨[5]⟩, ⟨[7]⟩], some ⟨[], [("READ", 0), ("SCAN", 1)]⟩, 0⟩ "READ" = some 0 :=
  (C4_one_histogram_per_name sampleCollab Global.start
    ⟨[⟨[5]⟩], some ⟨[], [("READ", 0)]⟩, 0⟩
    ⟨[⟨[5]⟩, ⟨[7]⟩], some ⟨[], [("READ", 0), ("SCAN", 1)]⟩, 0⟩ []
    [Call.Measure "READ" 5]
    [Call.Output, Call.Measure "SCAN" 7, Call.Info, Call.GetOpNames]
    (by decide) (by decide)).2.1 "READ" 0 (by decide)

/-- C5 as stated fails: the registry holds READ and SCAN, both histograms are
summarised without a fault, but the metric scopes are nil because
`InitializeMetrics` has not run. `output` prints the line of READ, panics on
the throughput scope and prints RECOVERED: SCAN is registered and gets no
line, so the printed lines are not one per registered name. -/
theorem C5_registered_name_without_line :
    measurement.output { sampleCollab with ThroughputScope := none, ResptimeScope := none }
        [⟨[5]⟩, ⟨[7]⟩] ⟨[], [("READ", 0), ("SCAN", 1)]⟩ =
        [Event.print "READ   - ok\n", Event.print "RECOVERED\n"] ∧
      sortStrings (OpMap.keys [("READ", 0), ("SCAN", 1)]) = ["READ", "SCAN"] ∧
      ¬ ((measurement.output
            { sampleCollab with ThroughputScope := none, ResptimeScope := none }
            [⟨[5]⟩, ⟨[7]⟩] ⟨[], [("READ", 0), ("SCAN", 1)]⟩).filter Event.isPrint =
          (sortStrings (OpMap.keys [("READ", 0), ("SCAN", 1)])).map
            (fun op => Event.print (reportLine op
              (summaryOf { sampleCollab with ThroughputScope := none, ResptimeScope := none }
                [⟨[5]⟩, ⟨[7]⟩] ⟨[], [("READ", 0), ("SCAN", 1)]⟩ op)))) := by
  decide

/-- C5 as amended: when no operation faults during `output`, the lines that
`output` prints are the report lines of the registered names, one per name, in
the sorted order of the names; the sorted order lists every registered name
once and is strictly increasing; and the report is the same whatever the
iteration order of the map, that is, whatever the order in which the names were
first measured. -/
theorem C5_output_lines_sorted (c : Collab) (heap : Heap) (m : measurement)
    (hn : m.opMeasurement.keys.Nodup)
    (hok : ∀ op ∈ m.opMeasurement.keys, (outputOp c heap m op).2 = false) :
    (m.output c heap).filter Event.isPrint =
        (sortStrings m.opMeasurement.keys).map
          (fun op => Event.print (reportLine op (summaryOf c heap m op))) ∧
      (sortStrings m.opMeasurement.keys).Perm m.opMeasurement.keys ∧
      (sortStrings m.opMeasurement.keys).Pairwise (fun a b => strLt a b = true) ∧
      ∀ m' : measurement, m'.opMeasurement.Perm m.opMeasurement →
        m'.output c heap = m.output c heap := by
  have hin : ∀ op ∈ sortStrings m.opMeasurement.keys, op ∈ m.opMeasurement.keys :=
    fun op h => ((sortStrings_perm _).mem_iff).1 h
  have hok' : ∀ op ∈ sortStrings m.opMeasurement.keys, (outputOp c heap m op).2 = false :=
    fun op h => hok op (hin op h)
  refine ⟨?_, sortStrings_perm _, sortStrings_strict _ hn, fun m' hp => output_perm c heap m m' hp hn⟩
  simp only [measurement.output, outputBody, outputLoop_ok c heap m _ hok']
  exact printed_lines c heap m _ hin hok'

theorem C5_output_lines_sorted_witness :
    (measurement.output sampleCollab [⟨[5]⟩, ⟨[7]⟩, ⟨[9]⟩]
        ⟨[], [("SCAN", 1), ("UPDATE", 2), ("READ", 0)]⟩).filter Event.isPrint =
      [Event.print "READ   - ok\n", Event.print "SCAN   - ok\n",
        Event.print "UPDATE - ok\n"] :=
  (C5_output_lines_sorted sampleCollab [⟨[5]⟩, ⟨[7]⟩, ⟨[9]⟩]
    ⟨[], [("SCAN", 1), ("UPDATE", 2), ("READ", 0)]⟩ (by decide) (by decide)).1.trans
    (by decide)

/-- C6 as stated fails: the registry holds READ and SCAN, the summary of the
READ histogram panics, and SCAN on its own would be reported without a fault.
`output` prints RECOVERED and nothing else: SCAN, sorted after READ, gets
neither its line nor any gauge. -/
theorem C6_later_operation_not_reported :
    (outputOp sampleCollab [⟨[-1]⟩, ⟨[7]⟩] ⟨[], [("READ", 0), ("SCAN", 1)]⟩ "READ").2 = true ∧
      outputOp sampleCollab [⟨[-1]⟩, ⟨[7]⟩] ⟨[], [("READ", 0), ("SCAN", 1)]⟩ "SCAN" =
        ([Event.print "SCAN   - ok\n",
          Event.gauge "throughput" [("op", "SCAN"), ("key_prefix", "default_keyprefix")]
            "qps" (GaugeValue.float ⟨1⟩),
          Event.gauge "response"
            [("op", "SCAN"), ("key_prefix", "default_keyprefix"), ("quantile", "0.5")]
            "time" (GaugeValue.ofInt64 7),
          Event.gauge "response"
            [("op", "SCAN"), ("key_prefix", "default_keyprefix"), ("quantile", "0.95")]
            "time" (GaugeValue.ofInt64 7),
          Event.gauge "response"
            [("op", "SCAN"), ("key_prefix", "default_keyprefix"), ("quantile", "0.99")]
            "time" (GaugeValue.ofInt64 7)], false) ∧
      measurement.output sampleCollab [⟨[-1]⟩, ⟨[7]⟩] ⟨[], [("READ", 0), ("SCAN", 1)]⟩ =
        [Event.print "RECOVERED\n"] ∧
      ¬ (∀ e ∈ (outputOp sampleCollab [⟨[-1]⟩, ⟨[7]⟩]
            ⟨[], [("READ", 0), ("SCAN", 1)]⟩ "SCAN").1,
          e ∈ measurement.output sampleCollab [⟨[-1]⟩, ⟨[7]⟩]
            ⟨[], [("READ", 0), ("SCAN", 1)]⟩) := by
  decide

/-- C6 as amended: when the turn of the operation `bad` panics in `output`,
the panic ends the loop and is recovered once. The report is the events of the
operations sorted before `bad`, then what `bad` emitted before its panic, then
RECOVERED. Every operation sorted before `bad` has its line printed and its
four gauges pushed; `bad` gets at most one gauge; no operation sorted after
`bad` gets a gauge, and no line is printed for any of them. -/
theorem C6_fault_ends_report (c : Collab) (heap : Heap) (m : measurement)
    (pre post : List String) (bad : String)
    (hn : m.opMeasurement.keys.Nodup)
    (hs : sortStrings m.opMeasurement.keys = pre ++ bad :: post)
    (hok : ∀ op ∈ pre, (outputOp c heap m op).2 = false)
    (hbad : (outputOp c heap m bad).2 = true) :
    m.output c heap =
        pre.flatMap (fun op => (outputOp c heap m op).1) ++ (outputOp c heap m bad).1 ++
          [Event.print "RECOVERED\n"] ∧
      (∀ op ∈ pre, Event.print (reportLine op (summaryOf c heap m op)) ∈ m.output c heap ∧
        ((m.output c heap).filter (Event.isGaugeOf op)).length = 4) ∧
      ((m.output c heap).filter (Event.isGaugeOf bad)).length ≤ 1 ∧
      (∀ op ∈ post, (m.output c heap).filter (Event.isGaugeOf op) = []) ∧
      ((m.output c heap).filter Event.isPrint).length ≤ pre.length + 2 := by
  have hnd : (pre ++ bad :: post).Nodup := by
    rw [← hs]; exact ((sortStrings_perm _).nodup_iff).2 hn
  have hin : ∀ op ∈ pre, op ∈ m.opMeasurement.keys := fun op h =>
    ((sortStrings_perm _).mem_iff).1 (by rw [hs]; exact List.mem_append_left _ h)
  have hloop := outputLoop_fault c heap m pre post bad hok hbad
  have hout : m.output c heap =
      pre.flatMap (fun op => (outputOp c heap m op).1) ++ (outputOp c heap m bad).1 ++
        [Event.print "RECOVERED\n"] := by
    simp only [measurement.output, outputBody, hs, hloop]
  have hbody : (outputBody c heap m).1 = (outputLoop c heap m (pre ++ bad :: post)).1 := by
    simp only [outputBody, hs]
  refine ⟨hout, ?_, ?_, ?_, ?_⟩
  · intro op hop
    obtain ⟨a, ha⟩ := OpMap.lookup_of_mem_keys _ op (hin op hop)
    obtain ⟨info, qps, p50, p95, p99, ts, rs, _, _, _, _, _, _, _, hev⟩ :=
      outputOp_ok c heap m op a ha (hok op hop)
    constructor
    · rw [hout]
      apply List.mem_append_left
      apply List.mem_append_left
      rw [List.mem_flatMap]
      exact ⟨op, hop, by rw [hev]; exact List.mem_cons_self _ _⟩
    · obtain ⟨l1, l2, rfl⟩ := List.append_of_mem hop
      have hnd' : (l1 ++ op :: (l2 ++ bad :: post)).Nodup := by
        simpa [List.append_assoc] using hnd
      have hok1 : ∀ k ∈ l1, (outputOp c heap m k).2 = false := fun k hk =>
        hok k (List.mem_append_left _ hk)
      have := outputLoop_gauges_reached c heap m l1 (l2 ++ bad :: post) op hnd' hok1
      rw [output_gauges, hbody]
      simp only [List.append_assoc, List.cons_append] at this ⊢
      rw [this]
      obtain ⟨_, _, _, _, _, _, _, _, _, _, _, _, _, _, hg⟩ :=
        outputOp_gauges_ok c heap m op a ha (hok op hop)
      rw [hg]
      rfl
  · rw [output_gauges, hbody, outputLoop_gauges_reached c heap m pre post bad hnd hok]
    rcases outputOp_fault_cases c heap m bad hbad with h | ⟨s0, h⟩ | ⟨s0, ts, q, h⟩
    · rw [h]; simp
    · rw [h]; simp [List.filter, Event.isGaugeOf]
    · rw [h]
      simp [List.filter, Event.isGaugeOf, qpsGauge, List.lookup]
  · intro op hop
    have h1 : op ∉ pre := by
      intro h
      exact (List.nodup_append.1 hnd).2.2 h (List.mem_cons_of_mem _ hop)
    have h2 : op ≠ bad := by
      rintro rfl
      exact (List.nodup_cons.1 (List.nodup_append.1 hnd).2.1).1 hop
    rw [output_gauges, hbody, hloop]
    simp only [List.filter_append, flatMap_gauges_other c heap m pre op h1,
      outputOp_gauges_other c heap m bad op h2, List.append_nil]
  · rw [hout]
    simp only [List.filter_append, List.length_append]
    rw [printed_lines c heap m pre hin hok]
    have hb : ((outputOp c heap m bad).1.filter Event.isPrint).length ≤ 1 := by
      rcases outputOp_fault_cases c heap m bad hbad with h | ⟨s0, h⟩ | ⟨s0, ts, q, h⟩
      · rw [h]; simp
      · rw [h]; simp [List.filter, Event.isPrint]
      · rw [h]; simp [List.filter, Event.isPrint, qpsGauge]
    have hr : (List.filter Event.isPrint [Event.print "RECOVERED\n"]).length = 1 := by
      simp [List.filter, Event.isPrint]
    rw [hr, List.length_map]
    omega

theorem C6_fault_ends_report_witness :
    measurement.output sampleCollab [⟨[5]⟩, ⟨[-1]⟩, ⟨[9]⟩]
        ⟨[], [("SCAN", 1), ("UPDATE", 2), ("READ", 0)]⟩ =
      ["READ"].flatMap (fun op => (outputOp sampleCollab [⟨[5]⟩, ⟨[-1]⟩, ⟨[9]⟩]
          ⟨[], [("SCAN", 1), ("UPDATE", 2), ("READ", 0)]⟩ op).1) ++
        (outputOp sampleCollab [⟨[5]⟩, ⟨[-1]⟩, ⟨[9]⟩]
          ⟨[], [("SCAN", 1), ("UPDATE", 2), ("READ", 0)]⟩ "SCAN").1 ++
        [Event.print "RECOVERED\n"] :=
  (C6_fault_ends_report sampleCollab [⟨[5]⟩, ⟨[-1]⟩, ⟨[9]⟩]
    ⟨[], [("SCAN", 1), ("UPDATE", 2), ("READ", 0)]⟩ ["READ"] ["UPDATE"] "SCAN"
    (by decide) (by decide) (by decide) (by decide)).1

/-- C7: on an initialised registry `Output()` returns: its result is the
events of the body, followed by RECOVERED when the body panicked, and the state
is left as it was. With no recorded operation, as right after `InitMeasure`,
it prints no line and pushes no gauge. -/
theorem C7_output_returns (c : Collab) (g : Global) (m : measurement)
    (h : g.globalMeasure = some m) :
    (∃ evs, Output c g = some evs) ∧
      Output c g = some (if (outputBody c g.heap m).2 = true
        then (outputBody c g.heap m).1 ++ [Event.print "RECOVERED\n"]
        else (outputBody c g.heap m).1) ∧
      exec c g Call.Output = some g ∧
      (m.opMeasurement = [] → Output c g = some []) ∧
      (∀ g0 p, Output c (InitMeasure g0 p) = some []) := by
  have hout : Output c g = some (if (outputBody c g.heap m).2 = true
      then (outputBody c g.heap m).1 ++ [Event.print "RECOVERED\n"]
      else (outputBody c g.heap m).1) := by
    simp only [Output, h, measurement.output]
    cases hB : outputBody c g.heap m with
    | mk evs b => cases b <;> simp
  refine ⟨⟨_, hout⟩, hout, by simp [exec, hout], ?_, ?_⟩
  · intro he
    simp [Output, h, measurement.output, outputBody, he, OpMap.keys, sortStrings, outputLoop]
  · intro g0 p
    simp [Output, InitMeasure_globalMeasure, measurement.output, outputBody, OpMap.keys,
      sortStrings, outputLoop]

theorem C7_output_returns_witness :
    Output sampleCollab ⟨[⟨[-1]⟩, ⟨[7]⟩], some ⟨[], [("READ", 0), ("SCAN", 1)]⟩, 0⟩ =
      some [Event.print "RECOVERED\n"] :=
  (C7_output_returns sampleCollab ⟨[⟨[-1]⟩, ⟨[7]⟩], some ⟨[], [("READ", 0), ("SCAN", 1)]⟩, 0⟩
    ⟨[], [("READ", 0), ("SCAN", 1)]⟩ rfl).2.1.trans (by decide)

/-- C8 as stated fails: with the warm-up duration set to the text `5s`, which
does not parse as an integer, `InitMeasure` completes, with an empty registry
and warm-up disabled. -/
theorem C8_unparsable_duration_defaults :
    parseInt64 "5s" = none ∧
      InitMeasure Global.start [("warmuptime", "5s")] =
        ⟨[], some ⟨[("warmuptime", "5s")], []⟩, 0⟩ ∧
      IsWarmUpFinished (InitMeasure Global.start [("warmuptime", "5s")]) = true := by
  decide

/-- C8 as amended: when the warm-up duration of the configuration does not
parse as an integer, `GetInt64` gives its default 0 and `InitMeasure`
completes with an empty registry and warm-up disabled. -/
theorem C8_unparsable_duration_disables_warm_up (g : Global) (p : Properties) (v : String)
    (hv : p.Get WarmUpTime = some v) (hp : parseInt64 v = none) :
    p.GetInt64 WarmUpTime 0 = 0 ∧
      InitMeasure g p = { heap := g.heap, globalMeasure := some ⟨p, []⟩, warmUp := 0 } ∧
      IsWarmUpFinished (InitMeasure g p) = true := by
  have h0 : p.GetInt64 WarmUpTime 0 = 0 := by simp [Properties.GetInt64, hv, hp]
  have h1 : InitMeasure g p = { heap := g.heap, globalMeasure := some ⟨p, []⟩, warmUp := 0 } := by
    simp [InitMeasure, h0, EnableWarmUp]
  exact ⟨h0, h1, by rw [h1]; rfl⟩

theorem C8_unparsable_duration_disables_warm_up_witness :
    IsWarmUpFinished (InitMeasure Global.start [("warmuptime", "soon")]) = true :=
  (C8_unparsable_duration_disables_warm_up Global.start [("warmuptime", "soon")] "soon"
    (by decide) (by decide)).2.2

/-- C9: for a configuration whose warm-up duration is the integer `w` (the key
absent counts as 0), `InitMeasure` leaves an empty registry, and
`IsWarmUpFinished()` is true exactly when `w <= 0`, so warm-up is active
exactly when `w > 0`. After `EnableWarmUp(b)`, `IsWarmUpFinished()` is the
negation of `b`, and stays so through any calls other than `EnableWarmUp`. -/
theorem C9_warm_up_flag (c : Collab) (g : Global) (p : Properties) (w : Int)
    (hw : (p.Get WarmUpTime = none ∧ w = 0) ∨
      ∃ v, p.Get WarmUpTime = some v ∧ parseInt64 v = some w) :
    (InitMeasure g p).globalMeasure = some ⟨p, []⟩ ∧
      (IsWarmUpFinished (InitMeasure g p) = true ↔ w ≤ 0) ∧
      (IsWarmUpFinished (InitMeasure g p) = false ↔ 0 < w) ∧
      (∀ g1 b, IsWarmUpFinished (EnableWarmUp g1 b) = !b) ∧
      (∀ g1 g2 b calls, (∀ b1, Call.EnableWarmUp b1 ∉ calls) →
        run c (EnableWarmUp g1 b) calls = some g2 → IsWarmUpFinished g2 = !b) := by
  have hget : p.GetInt64 WarmUpTime 0 = w := by
    rcases hw with ⟨hn, h0⟩ | ⟨v, hv, hp⟩
    · simp [Properties.GetInt64, hn, h0]
    · simp [Properties.GetInt64, hv, hp]
  have hflag : ∀ g1 b, IsWarmUpFinished (EnableWarmUp g1 b) = !b := by
    intro g1 b
    cases b <;> simp [IsWarmUpFinished, EnableWarmUp]
  have hinit : IsWarmUpFinished (InitMeasure g p) = !decide (w > 0) := by
    simp only [InitMeasure, hget, hflag]
  refine ⟨InitMeasure_globalMeasure g p, ?_, ?_, hflag, ?_⟩
  · rw [hinit]
    by_cases h : w > 0
    · simp [h]
    · simp [h]; omega
  · rw [hinit]
    by_cases h : w > 0
    · simp [h]
    · simp [h]
  · intro g1 g2 b calls hc hr
    have := run_warmUp c calls _ g2 hc hr
    have h2 := hflag g1 b
    simp only [IsWarmUpFinished] at h2 ⊢
    rw [this]
    exact h2

theorem C9_warm_up_flag_witness :
    IsWarmUpFinished (InitMeasure Global.start [("warmuptime", "-3")]) = true ↔ (-3 : Int) ≤ 0 :=
  (C9_warm_up_flag sampleCollab Global.start [("warmuptime", "-3")] (-3)
    (Or.inr ⟨"-3", by decide, by decide⟩)).2.1

/-- C10: with the metrics initialised, an operation whose turn `output`
reaches and completes gets exactly four gauge updates, in this order: `qps` on
the throughput scope with the tags op and key_prefix and the QPS of the
histogram as value; `time` on the response scope with the further tag quantile
0.5, 0.95 and 0.99 and the PER50TH, PER95TH and PER99TH of the histogram,
converted to float, as value. The key_prefix tag is `KEY_PREFIX` when that is
not empty and `default_keyprefix` otherwise. -/
theorem C10_four_gauges_per_operation (c0 : Collab) (heap : Heap) (m : measurement)
    (pre post : List String) (op : String)
    (hn : m.opMeasurement.keys.Nodup)
    (hs : sortStrings m.opMeasurement.keys = pre ++ op :: post)
    (hok : ∀ k ∈ pre ++ [op], (outputOp (InitializeMetrics c0) heap m k).2 = false) :
    ∃ a info qps p50 p95 p99,
      m.opMeasurement.lookup op = some a ∧
      heap[a]?.bind c0.Info = some info ∧
      MeasurementInfo.Get info "QPS" = Value.float64 qps ∧
      MeasurementInfo.Get info "PER50TH" = Value.int64 p50 ∧
      MeasurementInfo.Get info "PER95TH" = Value.int64 p95 ∧
      MeasurementInfo.Get info "PER99TH" = Value.int64 p99 ∧
      (m.output (InitializeMetrics c0) heap).filter (Event.isGaugeOf op) =
        [ Event.gauge "throughput"
            [("op", op), ("key_prefix",
              if c0.KEY_PREFIX = "" then "default_keyprefix" else c0.KEY_PREFIX)]
            "qps" (GaugeValue.float qps),
          Event.gauge "response"
            [("op", op), ("key_prefix",
              if c0.KEY_PREFIX = "" then "default_keyprefix" else c0.KEY_PREFIX),
              ("quantile", "0.5")]
            "time" (GaugeValue.ofInt64 p50),
          Event.gauge "response"
            [("op", op), ("key_prefix",
              if c0.KEY_PREFIX = "" then "default_keyprefix" else c0.KEY_PREFIX),
              ("quantile", "0.95")]
            "time" (GaugeValue.ofInt64 p95),
          Event.gauge "response"
            [("op", op), ("key_prefix",
              if c0.KEY_PREFIX = "" then "default_keyprefix" else c0.KEY_PREFIX),
              ("quantile", "0.99")]
            "time" (GaugeValue.ofInt64 p99) ] := by
  have hnd : (pre ++ op :: post).Nodup := by
    rw [← hs]; exact ((sortStrings_perm _).nodup_iff).2 hn
  have hmem : op ∈ m.opMeasurement.keys :=
    ((sortStrings_perm _).mem_iff).1 (by rw [hs]; simp)
  obtain ⟨a, ha⟩ := OpMap.lookup_of_mem_keys _ op hmem
  have hop : (outputOp (InitializeMetrics c0) heap m op).2 = false :=
    hok op (by simp)
  have hpre : ∀ k ∈ pre, (outputOp (InitializeMetrics c0) heap m k).2 = false :=
    fun k hk => hok k (List.mem_append_left _ hk)
  obtain ⟨info, qps, p50, p95, p99, ts, rs, h0, h1, h2, h3, h4, hts, hrs, hg⟩ :=
    outputOp_gauges_ok (InitializeMetrics c0) heap m op a ha hop
  refine ⟨a, info, qps, p50, p95, p99, ha, h0, h1, h2, h3, h4, ?_⟩
  rw [output_gauges]
  simp only [outputBody, hs]
  rw [outputLoop_gauges_reached _ heap m pre post op hnd hpre, hg]
  simp only [InitializeMetrics, Option.some.injEq] at hts hrs
  subst hts
  subst hrs
  simp [qpsGauge, timeGauge, keyPrefix, InitializeMetrics]

theorem C10_four_gauges_per_operation_witness :
    ∃ a info qps p50 p95 p99,
      List.lookup "SCAN" [("SCAN", 1), ("READ", 0)] = some a ∧
      ([⟨[5]⟩, ⟨[7]⟩] : Heap)[a]?.bind sampleCollab.Info = some info ∧
      MeasurementInfo.Get info "QPS" = Value.float64 qps ∧
      MeasurementInfo.Get info "PER50TH" = Value.int64 p50 ∧
      MeasurementInfo.Get info "PER95TH" = Value.int64 p95 ∧
      MeasurementInfo.Get info "PER99TH" = Value.int64 p99 ∧
      (measurement.output (InitializeMetrics sampleCollab) [⟨[5]⟩, ⟨[7]⟩]
          ⟨[], [("SCAN", 1), ("READ", 0)]⟩).filter (Event.isGaugeOf "SCAN") =
        [ Event.gauge "throughput"
            [("op", "SCAN"), ("key_prefix",
              if sampleCollab.KEY_PREFIX = "" then "default_keyprefix"
              else sampleCollab.KEY_PREFIX)]
            "qps" (GaugeValue.float qps),
          Event.gauge "response"
            [("op", "SCAN"), ("key_prefix",
              if sampleCollab.KEY_PREFIX = "" then "default_keyprefix"
              else sampleCollab.KEY_PREFIX),
              ("quantile", "0.5")]
            "time" (GaugeValue.ofInt64 p50),
          Event.gauge "response"
            [("op", "SCAN"), ("key_prefix",
              if sampleCollab.KEY_PREFIX = "" then "default_keyprefix"
              else sampleCollab.KEY_PREFIX),
              ("quantile", "0.95")]
            "time" (GaugeValue.ofInt64 p95),
          Event.gauge "response"
            [("op", "SCAN"), ("key_prefix",
              if sampleCollab.KEY_PREFIX = "" then "default_keyprefix"
              else sampleCollab.KEY_PREFIX),
              ("quantile", "0.99")]
            "time" (GaugeValue.ofInt64 p99) ] :=
  C10_four_gauges_per_operation sampleCollab [⟨[5]⟩, ⟨[7]⟩]
    ⟨[], [("SCAN", 1), ("READ", 0)]⟩ ["READ"] [] "SCAN" (by decide) (by decide) (by decide)

/-! ## The names of the registry -/

/-- The names registered after one call. -/
theorem exec_names (c : Collab) (g g1 : Global) (call : Call) (hi : Initialised g)
    (h : exec c g call = some g1) (op : String) :
    (histogramOf g1 op).isSome = true ↔
      ((histogramOf g op).isSome = true ∨
        op ∈ measuredNames (IsWarmUpFinished g) [call]) := by
  have same : g1 = g → measuredNames (IsWarmUpFinished g) [call] = [] →
      ((histogramOf g1 op).isSome = true ↔
        ((histogramOf g op).isSome = true ∨
          op ∈ measuredNames (IsWarmUpFinished g) [call])) := by
    intro e hm
    rw [e, hm]; simp
  cases call with
  | Measure k lan =>
    obtain ⟨m, hm, wf⟩ := hi
    by_cases hw : IsWarmUpFinished g = true
    · simp only [exec, Measure, hw, if_true, hm, Option.some.injEq] at h
      subst h
      simp only [histogramOf, hm, measuredNames, hw, if_true, List.mem_singleton]
      cases hl : m.opMeasurement.lookup k with
      | some a =>
        rw [measure_hit _ _ _ _ _ hl]
        constructor
        · intro h; exact Or.inl h
        · rintro (h | h)
          · exact h
          · rw [h, hl]; rfl
      | none =>
        rw [measure_miss _ _ _ _ hl]
        by_cases e : op = k
        · subst e
          simp [OpMap.lookup_insert_self]
        · simp [OpMap.lookup_insert_ne _ _ _ _ e, e]
    · simp only [exec, Measure, hw, Bool.false_eq_true, if_false, Option.some.injEq] at h
      exact same h.symm (by simp [measuredNames, hw])
  | Info =>
    simp only [exec, Option.map_eq_some'] at h
    obtain ⟨_, _, e⟩ := h
    exact same e.symm (by simp [measuredNames])
  | GetOpNames =>
    simp only [exec, Option.map_eq_some'] at h
    obtain ⟨_, _, e⟩ := h
    exact same e.symm (by simp [measuredNames])
  | Output =>
    simp only [exec, Option.map_eq_some'] at h
    obtain ⟨_, _, e⟩ := h
    exact same e.symm (by simp [measuredNames])
  | EnableWarmUp b =>
    simp only [exec, Option.some.injEq] at h
    subst h
    simp [histogramOf, EnableWarmUp_globalMeasure, measuredNames]

theorem measuredNames_cons (finished : Bool) (call : Call) (rest : List Call) (op : String) :
    op ∈ measuredNames finished (call :: rest) ↔
      (op ∈ measuredNames finished [call] ∨
        op ∈ measuredNames (finishedAfter finished call) rest) := by
  cases call with
  | Measure k lan =>
    cases finished <;> simp [measuredNames, finishedAfter]
  | Info => simp [measuredNames, finishedAfter]
  | GetOpNames => simp [measuredNames, finishedAfter]
  | Output => simp [measuredNames, finishedAfter]
  | EnableWarmUp b => simp [measuredNames, finishedAfter]

theorem exec_finished (c : Collab) (g g1 : Global) (call : Call)
    (h : exec c g call = some g1) :
    IsWarmUpFinished g1 = finishedAfter (IsWarmUpFinished g) call := by
  cases call with
  | EnableWarmUp b =>
    simp only [exec, Option.some.injEq] at h
    subst h
    cases b <;> simp [IsWarmUpFinished, EnableWarmUp, finishedAfter]
  | Measure k lan =>
    have := exec_warmUp c g g1 (Call.Measure k lan) (fun b => by simp) h
    simp [IsWarmUpFinished, this, finishedAfter]
  | Info =>
    have := exec_warmUp c g g1 Call.Info (fun b => by simp) h
    simp [IsWarmUpFinished, this, finishedAfter]
  | GetOpNames =>
    have := exec_warmUp c g g1 Call.GetOpNames (fun b => by simp) h
    simp [IsWarmUpFinished, this, finishedAfter]
  | Output =>
    have := exec_warmUp c g g1 Call.Output (fun b => by simp) h
    simp [IsWarmUpFinished, this, finishedAfter]

/-- The names registered after a sequence of calls. -/
theorem run_names (c : Collab) (calls : List Call) (g g1 : Global) (hi : Initialised g)
    (h : run c g calls = some g1) (op : String) :
    (histogramOf g1 op).isSome = true ↔
      ((histogramOf g op).isSome = true ∨
        op ∈ measuredNames (IsWarmUpFinished g) calls) := by
  induction calls generalizing g with
  | nil =>
    simp only [run, Option.some.injEq] at h
    subst h
    simp [measuredNames]
  | cons call rest ih =>
    cases he : exec c g call with
    | none => simp [run, he] at h
    | some g' =>
      simp only [run, he] at h
      have hi' := (exec_pointers c g g' call hi he).1
      rw [ih g' hi' h, exec_names c g g' call hi he op, exec_finished c g g' call he,
        measuredNames_cons (IsWarmUpFinished g) call rest op, or_assoc]

/-- What `info` returns when no `Info` of a histogram panics. -/
theorem infoLoop_some (c : Collab) (heap : Heap) (om : OpMap)
    (infos : List (String × MeasurementInfo)) (h : infoLoop c heap om = some infos) :
    infos.map Prod.fst = om.keys ∧
      ∀ op i, (op, i) ∈ infos →
        ∃ a hist, (op, a) ∈ om ∧ heap[a]? = some hist ∧ c.Info hist = some i := by
  induction om generalizing infos with
  | nil =>
    simp only [infoLoop, Option.some.injEq] at h
    subst h
    simp [OpMap.keys]
  | cons e rest ih =>
    obtain ⟨k, a⟩ := e
    simp only [infoLoop] at h
    cases hI : heap[a]?.bind c.Info with
    | none => simp [hI] at h
    | some i0 =>
      cases hr : infoLoop c heap rest with
      | none => simp [hI, hr] at h
      | some r =>
        simp only [hI, hr, Option.some.injEq] at h
        subst h
        obtain ⟨ih1, ih2⟩ := ih r hr
        refine ⟨by simp only [OpMap.keys] at ih1 ⊢; simp [ih1], ?_⟩
        intro op i hmem
        simp only [List.mem_cons, Prod.mk.injEq] at hmem
        rcases hmem with ⟨rfl, rfl⟩ | hmem
        · cases hh : heap[a]? with
          | none => simp [hh] at hI
          | some hist =>
            simp only [hh, Option.some_bind] at hI
            exact ⟨a, hist, List.mem_cons_self _ _, hh, hI⟩
        · obtain ⟨a', hist, h1, h2, h3⟩ := ih2 op i hmem
          exact ⟨a', hist, List.mem_cons_of_mem _ h1, h2, h3⟩

/-- The method `info` returns when every pointer is allocated and no `Info`
of a histogram panics. -/
theorem infoLoop_total (c : Collab) (heap : Heap) (om : OpMap)
    (hb : ∀ k a, (k, a) ∈ om → a < heap.length) (hc : ∀ h, (c.Info h).isSome = true) :
    ∃ infos, infoLoop c heap om = some infos := by
  induction om with
  | nil => exact ⟨[], rfl⟩
  | cons e rest ih =>
    obtain ⟨k, a⟩ := e
    obtain ⟨r, hr⟩ := ih (fun k' a' h => hb k' a' (List.mem_cons_of_mem _ h))
    have ha := hb k a (List.mem_cons_self _ _)
    have hh : heap[a]? = some heap[a] := List.getElem?_eq_getElem ha
    obtain ⟨i, hi⟩ := Option.isSome_iff_exists.1 (hc heap[a])
    exact ⟨(k, i) :: r, by simp [infoLoop, hh, hi, hr]⟩

/-- C11: in a state reached from `InitMeasure`, `GetOpNames()` lists each
registered name once, and a name is listed exactly when a `Measure` call for it
was made outside warm-up. When `Info()` returns, its keys are the names of
`GetOpNames()`, in the same order, and each name is mapped to the `Info()` of
the histogram registered for it; it returns whenever no `Info()` of a histogram
panics. Neither call changes the state. -/
theorem C11_info_and_names (c : Collab) (g0 g : Global) (p : Properties) (calls : List Call)
    (h : run c (InitMeasure g0 p) calls = some g) :
    ∃ names, GetOpNames g = some names ∧ names.Nodup ∧
      (∀ op, op ∈ names ↔
        op ∈ measuredNames (IsWarmUpFinished (InitMeasure g0 p)) calls) ∧
      (∀ infos, Info c g = some infos →
        infos.map Prod.fst = names ∧
        ∀ op i, (op, i) ∈ infos →
          ∃ a hist, histogramOf g op = some a ∧ g.heap[a]? = some hist ∧
            c.Info hist = some i) ∧
      ((∀ hist, (c.Info hist).isSome = true) → ∃ infos, Info c g = some infos) ∧
      (∀ infos, Info c g = some infos → exec c g Call.Info = some g) ∧
      exec c g Call.GetOpNames = some g := by
  obtain ⟨⟨m, hm, wf⟩, _, _, _⟩ :=
    run_pointers c calls _ g (InitMeasure_initialised g0 p) h
  have hnames := run_names c calls _ g (InitMeasure_initialised g0 p) h
  refine ⟨m.opMeasurement.keys, by simp [GetOpNames, hm, measurement.getOpName], wf.nodup,
    ?_, ?_, ?_, ?_, by simp [exec, GetOpNames, hm]⟩
  · intro op
    have h1 := hnames op
    simp only [histogramOf, hm, InitMeasure_globalMeasure, List.lookup, Option.isSome_none,
      Bool.false_eq_true, false_or] at h1
    rw [← h1]
    cases hl : m.opMeasurement.lookup op with
    | none => simpa using (OpMap.lookup_eq_none_iff _ _).1 hl
    | some a =>
      simp only [Option.isSome_some, iff_true]
      by_contra hc
      rw [(OpMap.lookup_eq_none_iff _ _).2 hc] at hl
      cases hl
  · intro infos hI
    simp only [Info, hm, measurement.info] at hI
    obtain ⟨h1, h2⟩ := infoLoop_some c g.heap _ infos hI
    refine ⟨h1, fun op i hmem => ?_⟩
    obtain ⟨a, hist, ha, hh, hi⟩ := h2 op i hmem
    exact ⟨a, hist, by
      simp only [histogramOf, hm]
      exact (OpMap.lookup_eq_some_iff _ wf.nodup op a).2 ha, hh, hi⟩
  · intro hc
    simp only [Info, hm, measurement.info]
    exact infoLoop_total c g.heap _
      (fun k a hk => wf.bound k a ((OpMap.lookup_eq_some_iff _ wf.nodup k a).2 hk)) hc
  · intro infos hI
    simp [exec, hI]

theorem C11_info_and_names_witness :
    ∃ names, GetOpNames ⟨[⟨[5]⟩, ⟨[7]⟩], some ⟨[], [("READ", 0), ("SCAN", 1)]⟩, 0⟩ =
        some names ∧ names.Nodup :=
  (C11_info_and_names sampleCollab Global.start
    ⟨[⟨[5]⟩, ⟨[7]⟩], some ⟨[], [("READ", 0), ("SCAN", 1)]⟩, 0⟩ []
    [Call.EnableWarmUp true, Call.Measure "UPDATE" 3, Call.EnableWarmUp false,
      Call.Measure "READ" 5, Call.Info, Call.Measure "SCAN" 7, Call.GetOpNames]
    (by decide)).imp (fun _ h => ⟨h.1, h.2.1⟩)

/-! ## More facts about the order of strings -/

theorem codes_append (a b : String) : codes (a ++ b) = codes a ++ codes b := by
  simp [codes]

theorem lexLt_append_left (p x y : List Nat) : lexLt (p ++ x) (p ++ y) = lexLt x y := by
  induction p with
  | nil => rfl
  | cons a as ih => simp [lexLt, ih]

theorem strLt_append_left (p a b : String) : strLt (p ++ a) (p ++ b) = strLt a b := by
  simp only [strLt, codes_append, lexLt_append_left]

theorem lexLt_nil_right (x : List Nat) : lexLt x [] = false := by
  cases x <;> rfl

theorem strLt_empty_right (a : String) : strLt a "" = false := by
  simp only [strLt]
  exact lexLt_nil_right _

end Measurement

namespace FoundationDB

open Measurement

/-! ## The scan range -/

/-- C17: the row key of every record of a table is below the end row key of
the table, byte by byte; and when the key of the record is not below the start
key, its row key lies in the range that `Scan` reads. -/
theorem C17_scan_range_covers_table (table key : String) :
    getRowKey table key = table ++ ":" ++ key ∧
      getEndRowKey table = table ++ ";" ∧
      strLt (getRowKey table key) (getEndRowKey table) = true ∧
      ∀ startKey, strLe startKey key →
        (scanRange table startKey).contains (getRowKey table key) = true := by
  have hlt : strLt (getRowKey table key) (getEndRowKey table) = true := by
    simp only [getRowKey, getEndRowKey, String.append_assoc, strLt_append_left]
    simp only [strLt, codes_append]
    have : codes ":" = [58] := by decide
    have h2 : codes ";" = [59] := by decide
    rw [this, h2]
    simp [lexLt]
  refine ⟨rfl, rfl, hlt, ?_⟩
  intro startKey hle
  simp only [KeyRange.contains, scanRange, hlt, Bool.and_true, Bool.not_eq_true']
  simp only [getRowKey, String.append_assoc, strLt_append_left]
  exact hle

theorem C17_scan_range_covers_table_witness :
    (scanRange "usertable" "user1").contains (getRowKey "usertable" "user27") = true :=
  (C17_scan_range_covers_table "usertable" "user27").2.2.2 "user1" (by decide)

end FoundationDB

namespace S3

open Measurement

/-! ## Facts about the bucket -/

theorem lookup_set_self (m : Fields) (k : String) (v : ByteSlice) :
    (Fields.set m k v).lookup k = some v := by
  induction m with
  | nil => simp [Fields.set, List.lookup]
  | cons e rest ih =>
    obtain ⟨k', v'⟩ := e
    by_cases h : k' = k
    · simp [Fields.set, h, List.lookup]
    · have h' : (k == k') = false := by simpa using fun e => h e.symm
      simp [Fields.set, h, List.lookup, h', ih]

theorem lookup_set_ne (m : Fields) (k k' : String) (v : ByteSlice) (hne : k' ≠ k) :
    (Fields.set m k v).lookup k' = m.lookup k' := by
  induction m with
  | nil =>
    have h' : (k' == k) = false := by simpa using hne
    simp [Fields.set, List.lookup, h']
  | cons e rest ih =>
    obtain ⟨k1, v1⟩ := e
    by_cases h : k1 = k
    · subst h
      have h' : (k' == k1) = false := by simpa using hne
      simp [Fields.set, List.lookup, h']
    · simp only [Fields.set, h, if_false, List.lookup]
      cases (k' == k1) <;> simp [ih]

/-- The object that `Insert` stores. -/
theorem Insert_some (cd : Codec) (b b1 : Bucket) (table key : String) (values : Values)
    (h : Insert cd b table key values = some b1) :
    ∃ payload, cd.Encode values = some payload ∧
      b1 = Fields.set b (composeObjectKey table key) payload := by
  simp only [Insert, encodeValues] at h
  cases he : cd.Encode values with
  | none => simp [he] at h
  | some payload =>
    simp only [he, PutObject] at h
    split at h
    · cases h
    · exact ⟨payload, rfl, (Option.some.inj h).symm⟩

/-- A full read of the record that `Insert` has just stored gives what the
codec decodes from the payload. -/
theorem Read_after_Insert (cd : Codec) (b b1 : Bucket) (table key : String) (values : Values)
    (h : Insert cd b table key values = some b1)
    (hrt : ∀ payload, cd.Encode values = some payload → cd.Decode payload = some values) :
    Read cd b1 table key [] = some values := by
  obtain ⟨payload, he, rfl⟩ := Insert_some cd b b1 table key values h
  simp [Read, GetObject, lookup_set_self, decodeValues, hrt payload he]

/-- `Insert` leaves the objects under other keys as they were. -/
theorem Read_after_Insert_other (cd : Codec) (b b1 : Bucket) (table key table2 key2 : String)
    (values : Values) (fields : List String)
    (h : Insert cd b table key values = some b1)
    (hne : composeObjectKey table2 key2 ≠ composeObjectKey table key) :
    Read cd b1 table2 key2 fields = Read cd b table2 key2 fields := by
  obtain ⟨payload, _, rfl⟩ := Insert_some cd b b1 table key values h
  simp only [Read, GetObject, lookup_set_ne _ _ _ _ hne]

/-- The fields of a map after the loop of `Update`. -/
theorem lookup_overlay (vals : Fields) (existing : Fields) (f : String)
    (hnd : (vals.map Prod.fst).Nodup) :
    (vals.foldl (fun ex e => Fields.set ex e.1 e.2) existing).lookup f =
      match vals.lookup f with
      | some v => some v
      | none => existing.lookup f := by
  induction vals generalizing existing with
  | nil => simp
  | cons e rest ih =>
    obtain ⟨k, v⟩ := e
    simp only [List.map_cons, List.nodup_cons] at hnd
    simp only [List.foldl_cons]
    rw [ih _ hnd.2]
    by_cases hf : f = k
    · subst hf
      have hnone : rest.lookup f = none := by
        cases hl : rest.lookup f with
        | none => rfl
        | some w =>
          exfalso
          apply hnd.1
          have : (f, w) ∈ rest := by
            clear ih hnd
            induction rest with
            | nil => simp at hl
            | cons e2 r2 ih2 =>
              obtain ⟨k2, v2⟩ := e2
              by_cases h2 : f = k2
              · subst h2
                simp only [List.lookup, beq_self_eq_true, Option.some.injEq] at hl
                subst hl
                exact List.mem_cons_self _ _
              · have h2' : (f == k2) = false := by simpa using h2
                simp only [List.lookup, h2'] at hl
                exact List.mem_cons_of_mem _ (ih2 hl)
          exact List.mem_map_of_mem Prod.fst this
      simp [hnone, lookup_set_self, List.lookup]
    · have hf' : (f == k) = false := by simpa using hf
      simp only [List.lookup, hf', lookup_set_ne _ _ _ _ hf]

/-! ## The claims about single records -/

/-- C12: after a successful `Insert(table, key, values)`, with a codec that
decodes the payload of `values` back to `values`, `Read(table, key, nil)`
succeeds and returns `values`. -/
theorem C12_insert_read_round_trip (cd : Codec) (b b1 : Bucket) (table key : String)
    (values : Values)
    (hins : Insert cd b table key values = some b1)
    (hrt : ∀ payload, cd.Encode values = some payload → cd.Decode payload = some values) :
    Read cd b1 table key [] = some values ∧
      ∃ payload, encodeValues cd values = some payload ∧
        GetObject b1 (composeObjectKey table key) = some payload ∧
        decodeValues cd payload = some values := by
  refine ⟨Read_after_Insert cd b b1 table key values hins hrt, ?_⟩
  obtain ⟨payload, he, rfl⟩ := Insert_some cd b b1 table key values hins
  exact ⟨payload, by simp [encodeValues, he], by simp [GetObject, lookup_set_self],
    by simp [decodeValues, hrt payload he]⟩

theorem C12_insert_read_round_trip_witness :
    Read sampleCodec [("tbl/k1", [0x81, 0xa1, 107, 0xa1, 118])] "tbl" "k1" [] =
      some (some [("k", [118])]) :=
  (C12_insert_read_round_trip sampleCodec [] [("tbl/k1", [0x81, 0xa1, 107, 0xa1, 118])]
    "tbl" "k1" (some [("k", [118])]) (by decide)
    (fun payload h => by
      have henc : sampleCodec.Encode (some [("k", [118])]) =
          some [0x81, 0xa1, 107, 0xa1, 118] := by decide
      rw [← Option.some.inj (henc.symm.trans h)]
      decide)).1

/-- C13: for a record that reads as `old`, after a successful
`Update(table, key, values)`, with a codec that decodes the stored payload
back, a full `Read` returns exactly `values` when `updateOverwrite` is true;
when it is false it returns `old` overlaid with `values`: a field of `values`
has the value from `values`, any other field has the value it has in `old`. -/
theorem C13_update_postcondition (cd : Codec) (db : s3DB) (b b1 : Bucket) (table key : String)
    (old values : Values)
    (hold : Read cd b table key [] = some old)
    (hupd : Update cd db b table key values = some b1)
    (hnd : ((entries values).map Prod.fst).Nodup)
    (hrt : ∀ payload, cd.Encode (updated db old values) = some payload →
      cd.Decode payload = some (updated db old values)) :
    (db.updateOverwrite = true → Read cd b1 table key [] = some values) ∧
      (db.updateOverwrite = false →
        ∃ r, Read cd b1 table key [] = some (some r) ∧
          ∀ f, r.lookup f =
            match index values f with
            | some v => some v
            | none => index old f) := by
  constructor
  · intro ho
    simp only [Update, ho, Bool.not_true, Bool.false_eq_true, if_false] at hupd
    simp only [updated, ho, if_true] at hrt
    exact Read_after_Insert cd b b1 table key values hupd hrt
  · intro ho
    simp only [Update, ho, Bool.not_false, if_true, hold] at hupd
    simp only [updated, ho, Bool.false_eq_true, if_false] at hrt
    have hex : (match old with | some m => m | none => ([] : Fields)) = entries old := by
      cases old <;> rfl
    have hupd' : Insert cd b table key (some (overlay (entries old) values)) = some b1 := by
      rw [← hupd, ← hex]
      cases old <;> rfl
    refine ⟨overlay (entries old) values,
      Read_after_Insert cd b b1 table key _ hupd' hrt, ?_⟩
    intro f
    simp only [overlay, index]
    exact lookup_overlay _ _ f hnd

theorem C13_update_postcondition_witness :
    ∃ r, Read sampleCodec
        [("tbl/k1", [0x82, 0xa1, 107, 0xa1, 118, 0xa2, 107, 50, 0xa2, 118, 50])] "tbl" "k1" [] =
          some (some r) ∧
      ∀ f, r.lookup f =
        match index (some [("k2", [118, 50])]) f with
        | some v => some v
        | none => index (some [("k", [118])]) f :=
  (C13_update_postcondition sampleCodec ⟨false, false⟩
    [("tbl/k1", [0x81, 0xa1, 107, 0xa1, 118])]
    [("tbl/k1", [0x82, 0xa1, 107, 0xa1, 118, 0xa2, 107, 50, 0xa2, 118, 50])]
    "tbl" "k1" (some [("k", [118])]) (some [("k2", [118, 50])])
    (by decide) (by decide) (by decide)
    (fun payload h => by
      have henc : sampleCodec.Encode
          (updated ⟨false, false⟩ (some [("k", [118])]) (some [("k2", [118, 50])])) =
          some [0x82, 0xa1, 107, 0xa1, 118, 0xa2, 107, 50, 0xa2, 118, 50] := by decide
      rw [← Option.some.inj (henc.symm.trans h)]
      decide)).2 rfl

/-- A text that is cut at its first `/` in two ways is cut in one way. -/
theorem split_at_slash (l1 l2 m1 m2 : List Char) (h1 : '/' ∉ l1) (h2 : '/' ∉ l2)
    (h : l1 ++ '/' :: m1 = l2 ++ '/' :: m2) : l1 = l2 ∧ m1 = m2 := by
  induction l1 generalizing l2 with
  | nil =>
    cases l2 with
    | nil => simpa using h
    | cons c cs =>
      simp only [List.nil_append, List.cons_append, List.cons.injEq] at h
      exact absurd (h.1 ▸ List.mem_cons_self _ _) h2
  | cons a as ih =>
    cases l2 with
    | nil =>
      simp only [List.nil_append, List.cons_append, List.cons.injEq] at h
      exact absurd (h.1 ▸ List.mem_cons_self _ _) h1
    | cons c cs =>
      simp only [List.cons_append, List.cons.injEq] at h
      obtain ⟨e1, e2⟩ := ih cs (fun hm => h1 (List.mem_cons_of_mem _ hm))
        (fun hm => h2 (List.mem_cons_of_mem _ hm)) h.2
      exact ⟨by rw [h.1, e1], e2⟩

/-- C18 as stated fails: the table `a` with the key `b/c` and the table `a/b`
with the key `c` have the same object key, and an `Insert` for the second
replaces what `Read` returns for the first. -/
theorem C18_object_keys_collide :
    composeObjectKey "a" "b/c" = composeObjectKey "a/b" "c" ∧
      (("a", "b/c") : String × String) ≠ ("a/b", "c") ∧
      ((Insert sampleCodec [] "a" "b/c" (some [("k", [1])])).bind
        (fun b => Insert sampleCodec b "a/b" "c" (some [("k", [2])]))).bind
        (fun b => Read sampleCodec b "a" "b/c" []) = some (some [("k", [2])]) := by
  decide

/-- C18 as amended: for tables without `/` that are both empty or both not
empty, equal object keys come from equal tables and equal keys; for one table,
whatever its name, equal object keys come from equal keys. So an `Insert` for
one such table and key leaves what `Read` returns for another as it was. -/
theorem C18_object_keys_distinct (table1 key1 table2 key2 : String)
    (h1 : '/' ∉ table1.toList) (h2 : '/' ∉ table2.toList)
    (he : table1 = "" ↔ table2 = "") :
    (composeObjectKey table1 key1 = composeObjectKey table2 key2 →
        table1 = table2 ∧ key1 = key2) ∧
      (∀ table k1 k2, composeObjectKey table k1 = composeObjectKey table k2 → k1 = k2) ∧
      (∀ cd b b1 values fields, (table1, key1) ≠ (table2, key2) →
        Insert cd b table1 key1 values = some b1 →
        Read cd b1 table2 key2 fields = Read cd b table2 key2 fields) := by
  have inj : composeObjectKey table1 key1 = composeObjectKey table2 key2 →
      table1 = table2 ∧ key1 = key2 := by
    intro h
    by_cases e1 : table1 = ""
    · have e2 := he.1 e1
      subst e1 e2
      simpa [composeObjectKey] using h
    · have e2 : table2 ≠ "" := fun e => e1 (he.2 e)
      simp only [composeObjectKey, e1, e2, if_false] at h
      have hl := congrArg String.toList h
      simp only [String.toList, String.data_append] at hl
      simp only [List.append_assoc, List.singleton_append] at hl
      obtain ⟨a, c⟩ := split_at_slash _ _ _ _ h1 h2 hl
      exact ⟨String.ext a, String.ext c⟩
  refine ⟨inj, ?_, ?_⟩
  · intro table k1 k2 h
    by_cases e : table = ""
    · simpa [composeObjectKey, e] using h
    · simp only [composeObjectKey, e, if_false] at h
      have hl := congrArg String.toList h
      simp only [String.toList, String.data_append] at hl
      exact String.ext (List.append_cancel_left hl)
  · intro cd b b1 values fields hne hins
    apply Read_after_Insert_other cd b b1 table1 key1 table2 key2 values fields hins
    intro hk
    obtain ⟨a, c⟩ := inj hk.symm
    exact hne (by rw [a, c])

theorem C18_object_keys_distinct_witness :
    Read sampleCodec [("tbl/k1", [0x81, 0xa1, 107, 0xa1, 118])] "usr" "k1" [] =
      Read sampleCodec [] "usr" "k1" [] :=
  (C18_object_keys_distinct "tbl" "k1" "usr" "k1" (by decide) (by decide) (by decide)).2.2
    sampleCodec [] [("tbl/k1", [0x81, 0xa1, 107, 0xa1, 118])] (some [("k", [118])]) []
    (by decide) (by decide)

/-- C16, on a concrete input: the bucket is empty, so no object is stored
under the start key. In keys-only mode `Scan` returns a record for the start
key all the same; with the objects read, it returns none. -/
theorem C16_keys_only_includes_missing_start_key :
    GetObject [] (composeObjectKey "tbl" "missing") = none ∧
      Scan sampleCodec ⟨true, true⟩ [] "tbl" "missing" 1 [] =
        Outcome.ok [some [("missing", [])]] ∧
      Scan sampleCodec ⟨true, false⟩ [] "tbl" "missing" 1 [] = Outcome.ok [] := by
  decide

/-! ## Facts about the loops of `Scan` -/

theorem scanPage_zero (cd : Codec) (db : s3DB) (b : Bucket) (table : String)
    (fields : List String) (pfx startAfter : String) (ks : List String)
    (results : List Values) :
    scanPage cd db b table fields pfx startAfter ks 0 results = (0, results) := by
  cases ks <;> simp [scanPage]

theorem scanPage_append (cd : Codec) (db : s3DB) (b : Bucket) (table : String)
    (fields : List String) (pfx startAfter : String) (xs ys : List String) (remaining : Int)
    (results : List Values) :
    scanPage cd db b table fields pfx startAfter (xs ++ ys) remaining results =
      scanPage cd db b table fields pfx startAfter ys
        (scanPage cd db b table fields pfx startAfter xs remaining results).1
        (scanPage cd db b table fields pfx startAfter xs remaining results).2 := by
  induction xs generalizing remaining results with
  | nil => simp [scanPage]
  | cons k rest ih =>
    simp only [List.cons_append, scanPage]
    split
    · rename_i h0
      subst h0
      rw [scanPage_zero]
    · split
      · exact ih _ _
      · split
        · exact ih _ _
        · split
          · exact ih _ _
          · exact ih _ _

theorem scanPage_bounds (cd : Codec) (db : s3DB) (b : Bucket) (table : String)
    (fields : List String) (pfx startAfter : String) (ks : List String) (remaining : Int)
    (results : List Values) (h0 : 0 ≤ remaining) :
    0 ≤ (scanPage cd db b table fields pfx startAfter ks remaining results).1 ∧
      (scanPage cd db b table fields pfx startAfter ks remaining results).1 ≤ remaining := by
  induction ks generalizing remaining results with
  | nil => simp [scanPage, h0]
  | cons k rest ih =>
    simp only [scanPage]
    split
    · simp [h0]
    · rename_i hne
      have hpos : 0 ≤ remaining - 1 := by omega
      split
      · exact ih _ _ h0
      · split
        · have := ih (remaining - 1) (results ++ [some [(recordKeyOf pfx k, [])]]) hpos
          exact ⟨this.1, by omega⟩
        · split
          · exact ih _ _ h0
          · rename_i rec _
            have := ih (remaining - 1) (results ++ [rec]) hpos
            exact ⟨this.1, by omega⟩

theorem toInt32_of_small (n : Int) (h0 : 0 ≤ n) (h1 : n < 2 ^ 31) : toInt32 n = n := by
  unfold toInt32
  have e : (n + 2 ^ 31) % 2 ^ 32 = n + 2 ^ 31 :=
    Int.emod_eq_of_lt (by omega) (by norm_num at h1 ⊢; omega)
  rw [e]
  omega

/-- The loop of `Scan` over the pages of the listing does what one pass over
the whole listing does, and comes to an end. -/
theorem scanLoop_eq (cd : Codec) (db : s3DB) (b : Bucket) (table : String)
    (fields : List String) (pfx startAfter : String) (fuel : Nat)
    (contToken : Option (List String)) (remaining : Int) (results : List Values)
    (hfuel : (pendingKeys b pfx startAfter contToken).length < fuel)
    (h0 : 0 ≤ remaining) (h1 : remaining < 2 ^ 31) :
    scanLoop cd db b table fields pfx startAfter fuel contToken remaining results =
      Outcome.ok (scanPage cd db b table fields pfx startAfter
        (pendingKeys b pfx startAfter contToken) remaining results).2 := by
  induction fuel generalizing contToken remaining results with
  | zero => omega
  | succ fuel ih =>
    simp only [scanLoop]
    by_cases hr : remaining > 0
    · simp only [hr, if_true]
      rw [toInt32_of_small remaining h0 h1]
      set maxKeys : Int := if remaining > 1000 then 1000 else remaining with hmk
      have hmpos : 0 < maxKeys := by
        rw [hmk]; split <;> omega
      have hL : ListObjectsV2 b pfx startAfter contToken maxKeys =
          some { Contents := (pendingKeys b pfx startAfter contToken).take maxKeys.toNat,
                 IsTruncated :=
                   decide (maxKeys.toNat < (pendingKeys b pfx startAfter contToken).length),
                 NextContinuationToken :=
                   if maxKeys.toNat < (pendingKeys b pfx startAfter contToken).length
                   then some ((pendingKeys b pfx startAfter contToken).drop maxKeys.toNat)
                   else none } := by
        have hn : ¬ maxKeys < 0 := by omega
        have hz : ¬ maxKeys = 0 := by omega
        cases contToken <;> simp [ListObjectsV2, hn, hz, pendingKeys]
      rw [hL]
      simp only
      set pending := pendingKeys b pfx startAfter contToken with hp
      have hnpos : 0 < maxKeys.toNat := by omega
      by_cases hempty : (pending.take maxKeys.toNat).length = 0
      · simp only [hempty, if_true]
        have : pending = [] := by
          cases hpe : pending with
          | nil => rfl
          | cons x xs =>
            rw [hpe] at hempty
            simp only [List.length_take, List.length_cons] at hempty
            omega
        rw [this]
        simp [scanPage]
      · simp only [hempty, if_false]
        have hsplit := scanPage_append cd db b table fields pfx startAfter
          (pending.take maxKeys.toNat) (pending.drop maxKeys.toNat) remaining results
        rw [List.take_append_drop] at hsplit
        have hb := scanPage_bounds cd db b table fields pfx startAfter
          (pending.take maxKeys.toNat) remaining results h0
        by_cases htr : maxKeys.toNat < pending.length
        · by_cases hz : (scanPage cd db b table fields pfx startAfter
              (pending.take maxKeys.toNat) remaining results).1 = 0
          · simp only [htr, decide_True, Bool.not_true, Bool.false_or, hz, decide_True,
              if_true]
            rw [hsplit, hz, scanPage_zero]
          · simp only [htr, decide_True, Bool.not_true, Bool.false_or, hz, decide_False,
              Bool.false_eq_true, if_false, if_true]
            rw [ih (some (pending.drop maxKeys.toNat)) _ _ (by
                simp only [pendingKeys, List.length_drop]
                omega) hb.1 (by omega)]
            simp only [pendingKeys]
            rw [hsplit]
        · have hall : pending.take maxKeys.toNat = pending :=
            List.take_of_length_le (by omega)
          simp only [htr, decide_False, Bool.not_false, Bool.true_or, if_true]
          rw [hall]
    · have hz : remaining = 0 := by omega
      subst hz
      simp [scanPage_zero]

/-- One pass over keys whose records are read with success, none of them the
start key: the first `remaining` of them are appended. -/
theorem scanPage_all (cd : Codec) (db : s3DB) (b : Bucket) (table : String)
    (fields : List String) (pfx startAfter : String) (ks : List String) (remaining : Nat)
    (results : List Values)
    (hne : ∀ k ∈ ks, k ≠ startAfter)
    (hok : ∀ k ∈ ks, (scanRecord cd db b table fields pfx k).isSome = true) :
    (scanPage cd db b table fields pfx startAfter ks (remaining : Int) results).2 =
      results ++ (ks.take remaining).filterMap (scanRecord cd db b table fields pfx) := by
  induction ks generalizing remaining results with
  | nil => simp [scanPage]
  | cons k rest ih =>
    have hrest := fun r res => ih r res (fun x hx => hne x (List.mem_cons_of_mem _ hx))
      (fun x hx => hok x (List.mem_cons_of_mem _ hx))
    have hk := hne k (List.mem_cons_self _ _)
    have hs := hok k (List.mem_cons_self _ _)
    cases remaining with
    | zero => simp [scanPage]
    | succ r =>
      have hr : ((r + 1 : Nat) : Int) ≠ 0 := by omega
      have hr1 : ((r + 1 : Nat) : Int) - 1 = (r : Int) := by omega
      simp only [scanPage, hr, if_false, hk, hr1, List.take_succ_cons, List.filterMap_cons]
      by_cases hko : db.scanKeysOnly = true
      · simp only [hko, if_true, scanRecord, hrest]
        simp
      · simp only [hko, Bool.false_eq_true, if_false, scanRecord] at hs ⊢
        cases hR : Read cd b table (recordKeyOf pfx k) fields with
        | none => simp [hR] at hs
        | some rec =>
          simp only [hrest]
          simp

/-! ## Facts about object keys -/

theorem composeObjectKey_eq (table key : String) :
    composeObjectKey table key = tablePrefix table ++ key := by
  by_cases h : table = ""
  · subst h
    simp only [composeObjectKey, tablePrefix, ne_eq, not_true_eq_false, if_true, if_false]
    exact String.ext (by simp)
  · simp [composeObjectKey, tablePrefix, h]

theorem hasPrefix_append (p s : String) : hasPrefix (p ++ s) p = true := by
  simp only [hasPrefix, List.isPrefixOf_iff_prefix, String.toList, String.data_append]
  exact List.prefix_append _ _

theorem stripPrefix_append (p s : String) : stripPrefix p (p ++ s) = s := by
  simp only [stripPrefix, String.toList, String.data_append, String.length]
  rw [List.drop_left]

theorem eq_append_of_hasPrefix (p k : String) (h : hasPrefix k p = true) :
    k = p ++ stripPrefix p k := by
  simp only [hasPrefix, List.isPrefixOf_iff_prefix] at h
  obtain ⟨t, ht⟩ := h
  apply String.ext
  simp only [String.data_append, stripPrefix, String.toList, String.length] at ht ⊢
  rw [← ht, List.drop_left]

theorem strLt_ne (a b : String) (h : strLt a b = true) : a ≠ b := by
  rintro rfl
  rw [strLt_irrefl] at h
  cases h

/-- In a listing after `pfx ++ startKey`, the record key that `Scan` takes
from an object key is the key without `pfx`. -/
theorem recordKeyOf_listed (p startKey k : String) (hp : hasPrefix k p = true)
    (hlt : strLt (p ++ startKey) k = true) : recordKeyOf p k = stripPrefix p k := by
  have hk := eq_append_of_hasPrefix p k hp
  have hs : strLt startKey (stripPrefix p k) = true := by
    rw [hk, strLt_append_left] at hlt
    exact hlt
  have hne : stripPrefix p k ≠ "" := by
    intro e
    rw [e, strLt_empty_right] at hs
    cases hs
  by_cases hpe : p = ""
  · subst hpe
    simp [recordKeyOf, stripPrefix]
  · have hpos : 0 < (stripPrefix p k).data.length := by
      cases hd : (stripPrefix p k).data with
      | nil => exact absurd (String.ext hd) hne
      | cons x xs => simp
    have hlen : k.length > p.length := by
      have e : k.length = p.length + (stripPrefix p k).length := by
        conv_lhs => rw [hk]
        exact String.length_append _ _
      simp only [String.length] at e ⊢
      omega
    simp [recordKeyOf, hpe, hlen, hp, stripPrefix]

/-! ## Facts about the listing -/

theorem mem_listing (b : Bucket) (p sa k : String) :
    k ∈ listing b p sa ↔ k ∈ b.keys ∧ hasPrefix k p = true ∧ strLt sa k = true := by
  simp only [listing, List.mem_filter, Bool.and_eq_true]
  rw [(sortStrings_perm b.keys).mem_iff]

theorem listing_length_le (b : Bucket) (p sa : String) :
    (listing b p sa).length ≤ b.length := by
  have h1 : (listing b p sa).length ≤ (sortStrings b.keys).length := List.length_filter_le _ _
  have h2 : (sortStrings b.keys).length = b.keys.length := (sortStrings_perm _).length_eq
  have h3 : b.keys.length = b.length := by simp [Bucket.keys]
  omega

theorem listing_strict (b : Bucket) (p sa : String) (hnd : b.keys.Nodup) :
    (listing b p sa).Pairwise (fun x y => strLt x y = true) :=
  (sortStrings_strict b.keys hnd).filter _

/-- The keys not below `x` are `x` and the keys above it. -/
theorem perm_filter_from (l : List String) (q : String → Bool) (x : String)
    (hnd : l.Nodup) (hx : x ∈ l) (hq : q x = true) :
    (l.filter (fun k => q k && !strLt k x)).Perm
      (x :: l.filter (fun k => q k && strLt x k)) := by
  induction l with
  | nil => simp at hx
  | cons a rest ih =>
    simp only [List.nodup_cons] at hnd
    by_cases hax : a = x
    · subst hax
      have hrest : rest.filter (fun k => q k && !strLt k a) =
          rest.filter (fun k => q k && strLt a k) := by
        apply List.filter_congr
        intro k hk
        have hne : k ≠ a := fun e => hnd.1 (e ▸ hk)
        cases hq' : q k with
        | false => simp
        | true =>
          simp only [Bool.true_and]
          cases h1 : strLt k a with
          | true => simp [strLt_asymm k a h1]
          | false =>
            cases h2 : strLt a k with
            | true => rfl
            | false => exact absurd (strLt_tri k a h1 h2) hne
      simp [List.filter_cons, hq, strLt_irrefl, hrest]
    · have hxr : x ∈ rest := by
        rcases List.mem_cons.1 hx with h | h
        · exact absurd h.symm hax
        · exact h
      have ih' := ih hnd.2 hxr
      cases hq' : q a with
      | false => simpa [List.filter_cons, hq'] using ih'
      | true =>
        cases h1 : strLt a x with
        | true =>
          simpa [List.filter_cons, hq', h1, strLt_asymm a x h1] using ih'
        | false =>
          have h2 : strLt x a = true := by
            cases h2 : strLt x a with
            | true => rfl
            | false => exact absurd (strLt_tri a x h1 h2) hax
          simp only [List.filter_cons, hq', h1, h2, Bool.not_false, Bool.and_self, if_true]
          exact (List.Perm.cons a ih').trans (List.Perm.swap x a _)

/-- The record keys of a table from an existing start key on: the start key,
then the keys of the listing after it without the table part. -/
theorem recordKeysFrom_eq (b : Bucket) (table startKey : String) (hnd : b.keys.Nodup)
    (hex : composeObjectKey table startKey ∈ b.keys) :
    recordKeysFrom b table startKey =
      startKey :: (listing b (tablePrefix table) (composeObjectKey table startKey)).map
        (stripPrefix (tablePrefix table)) := by
  set p := tablePrefix table with hp
  have hsa : composeObjectKey table startKey = p ++ startKey := composeObjectKey_eq _ _
  rw [hsa] at hex ⊢
  have hperm : ((recordKeys b table).filter (fun rk => !strLt rk startKey)).Perm
      (startKey :: (listing b p (p ++ startKey)).map (stripPrefix p)) := by
    have e1 : (recordKeys b table).filter (fun rk => !strLt rk startKey) =
        (b.keys.filter (fun k => hasPrefix k p && !strLt k (p ++ startKey))).map
          (stripPrefix p) := by
      simp only [recordKeys, ← hp, List.filter_map, List.filter_filter]
      congr 1
      apply List.filter_congr
      intro k _
      cases hh : hasPrefix k p with
      | false => simp
      | true =>
        have hk := eq_append_of_hasPrefix p k hh
        simp only [Function.comp, Bool.and_true, Bool.true_and]
        conv_rhs => rw [hk, strLt_append_left]
    rw [e1]
    have e2 := perm_filter_from b.keys (fun k => hasPrefix k p) (p ++ startKey) hnd hex
      (hasPrefix_append p startKey)
    have e3 : (b.keys.filter (fun k => hasPrefix k p && strLt (p ++ startKey) k)).Perm
        (listing b p (p ++ startKey)) :=
      ((sortStrings_perm b.keys).filter _).symm
    have e4 := (e2.trans (List.Perm.cons _ e3)).map (stripPrefix p)
    simpa [stripPrefix_append] using e4
  have hstrict : (startKey :: (listing b p (p ++ startKey)).map (stripPrefix p)).Pairwise
      (fun x y => strLt x y = true) := by
    rw [List.pairwise_cons]
    constructor
    · intro rk hrk
      rw [List.mem_map] at hrk
      obtain ⟨k, hk, rfl⟩ := hrk
      obtain ⟨_, hpre, hlt⟩ := (mem_listing b p (p ++ startKey) k).1 hk
      rw [eq_append_of_hasPrefix p k hpre, strLt_append_left] at hlt
      exact hlt
    · rw [List.pairwise_map]
      refine (listing_strict b p (p ++ startKey) hnd).imp_of_mem ?_
      intro x y hx hy hxy
      have hx' := (mem_listing b p (p ++ startKey) x).1 hx
      have hy' := (mem_listing b p (p ++ startKey) y).1 hy
      rw [eq_append_of_hasPrefix p x hx'.2.1, eq_append_of_hasPrefix p y hy'.2.1,
        strLt_append_left] at hxy
      exact hxy
  have hsorted : (startKey :: (listing b p (p ++ startKey)).map (stripPrefix p)).Sorted
      strLe :=
    hstrict.imp (fun h => strLt_asymm _ _ h)
  exact List.eq_of_perm_of_sorted ((sortStrings_perm _).trans hperm) (sortStrings_sorted _)
    hsorted

/-! ## What `Scan` returns -/

/-- With a start key whose record is included, `Scan` returns that record and
then the records of the first `count - 1` keys of the listing, when each of
them is read with success. -/
theorem Scan_from_start (cd : Codec) (db : s3DB) (b : Bucket) (table startKey : String)
    (count : Int) (fields : List String) (r0 : Values)
    (hk : startKey ≠ "") (hc1 : 1 ≤ count) (hc2 : count < 2 ^ 31)
    (hstart : scanStart cd db b table startKey fields = [r0])
    (hok : ∀ k ∈ listing b (tablePrefix table) (composeObjectKey table startKey),
      (scanRecord cd db b table fields (tablePrefix table) k).isSome = true) :
    Scan cd db b table startKey count fields =
      Outcome.ok (r0 ::
        ((listing b (tablePrefix table) (composeObjectKey table startKey)).take
          (count - 1).toNat).filterMap (scanRecord cd db b table fields (tablePrefix table))) := by
  have hnot : ¬ count ≤ 0 := by omega
  simp only [Scan, hnot, if_false, hstart, List.length_singleton, Nat.cast_one]
  by_cases h1 : count = 1
  · subst h1
    simp [hk]
  · have hgt : ¬ ((1 : Int) ≥ count) := by omega
    simp only [hgt, and_false, if_false]
    have hne : ∀ k ∈ listing b (tablePrefix table) (composeObjectKey table startKey),
        k ≠ composeObjectKey table startKey := fun k hkm =>
      (strLt_ne _ _ ((mem_listing _ _ _ _).1 hkm).2.2).symm
    have hfuel : (pendingKeys b (tablePrefix table) (composeObjectKey table startKey)
        none).length < b.length + 1 := by
      have := listing_length_le b (tablePrefix table) (composeObjectKey table startKey)
      simp only [pendingKeys]
      omega
    have hloop := scanLoop_eq cd db b table fields (tablePrefix table)
      (composeObjectKey table startKey) (b.length + 1) none (count - 1) [r0] hfuel
      (by omega) (by omega)
    have hcast : (count - 1 : Int) = (((count - 1).toNat : Nat) : Int) := by
      rw [Int.toNat_of_nonneg (by omega)]
    have hpage := scanPage_all cd db b table fields (tablePrefix table)
      (composeObjectKey table startKey)
      (listing b (tablePrefix table) (composeObjectKey table startKey)) (count - 1).toNat [r0]
      hne hok
    rw [← hcast] at hpage
    simp only [pendingKeys] at hloop
    rw [hpage] at hloop
    simpa [tablePrefix] using hloop

theorem scanStart_keysOnly (cd : Codec) (db : s3DB) (b : Bucket) (table startKey : String)
    (fields : List String) (hk : startKey ≠ "") (hko : db.scanKeysOnly = true) :
    scanStart cd db b table startKey fields = [some [(startKey, [])]] := by
  simp [scanStart, hk, hko]

/-- C15, on concrete inputs: in keys-only mode `Scan` returns a record keyed
by the start key also when the table holds no object under it. On an empty
bucket the start key `x` is returned although the table has no record key; on
a table with the records `keyB` and `keyC`, a scan from `keyA` returns `keyA`
first, while the record keys of the table from `keyA` on are `keyB` and
`keyC`. -/
theorem C15_start_key_not_a_record_key :
    Scan sampleCodec ⟨true, true⟩ [] "tbl" "x" 1 [] = Outcome.ok [some [("x", [])]] ∧
      recordKeys [] "tbl" = [] ∧ recordKeysFrom [] "tbl" "x" = [] ∧
      Scan sampleCodec ⟨true, true⟩ [("tbl/keyC", []), ("tbl/keyB", [])] "tbl" "keyA" 3 [] =
        Outcome.ok [some [("keyA", [])], some [("keyB", [])], some [("keyC", [])]] ∧
      recordKeysFrom [("tbl/keyC", []), ("tbl/keyB", [])] "tbl" "keyA" = ["keyB", "keyC"] :=
  ⟨by decide, by decide, by decide, by decide, by decide⟩

/-- Keys-only `Scan` from a start key that exists: for a start key that is
not empty and exists in the table and a count from 1 on (within int32), `Scan`
returns one map per record key of the table from the start key on, in ascending
order, up to `count` of them; each map has that record key as its only key. The
first is keyed by the start key, the keys are strictly increasing, so none
appears twice, and they are exactly the keys under which the table holds an
object and that are not below the start key. -/
theorem keys_only_scan_of_existing_start_key (cd : Codec) (db : s3DB) (b : Bucket) (table startKey : String)
    (count : Int) (fields : List String)
    (hko : db.scanKeysOnly = true) (hk : startKey ≠ "")
    (hc1 : 1 ≤ count) (hc2 : count < 2 ^ 31)
    (hnd : b.keys.Nodup) (hex : composeObjectKey table startKey ∈ b.keys) :
    Scan cd db b table startKey count fields =
        Outcome.ok (((recordKeysFrom b table startKey).take count.toNat).map
          (fun rk => some [(rk, [])])) ∧
      (recordKeysFrom b table startKey).head? = some startKey ∧
      (recordKeysFrom b table startKey).Pairwise (fun x y => strLt x y = true) ∧
      ∀ rk, rk ∈ recordKeysFrom b table startKey ↔
        (composeObjectKey table rk ∈ b.keys ∧ strLe startKey rk) := by
  set p := tablePrefix table with hp
  set sa := composeObjectKey table startKey with hsa
  have hrk := recordKeysFrom_eq b table startKey hnd hex
  rw [← hp, ← hsa] at hrk
  have hsae : sa = p ++ startKey := composeObjectKey_eq _ _
  have hok : ∀ k ∈ listing b p sa, (scanRecord cd db b table fields p k).isSome = true := by
    intro k _
    simp [scanRecord, hko]
  have hscan := Scan_from_start cd db b table startKey count fields _ hk hc1 hc2
    (scanStart_keysOnly cd db b table startKey fields hk hko) hok
  have hmap : ((listing b p sa).take (count - 1).toNat).filterMap
      (scanRecord cd db b table fields p) =
      (((listing b p sa).map (stripPrefix p)).take (count - 1).toNat).map
        (fun rk => some [(rk, [])]) := by
    rw [← List.map_take, List.map_map]
    rw [← List.filterMap_eq_map]
    apply List.filterMap_congr
    intro k hkm
    have hkl := List.mem_of_mem_take hkm
    obtain ⟨_, hpre, hlt⟩ := (mem_listing b p sa k).1 hkl
    rw [hsae] at hlt
    simp [scanRecord, hko, recordKeyOf_listed p startKey k hpre hlt]
  have hcount : count.toNat = (count - 1).toNat + 1 := by omega
  refine ⟨?_, ?_, ?_, ?_⟩
  · rw [hscan, hmap, hrk, hcount, List.take_succ_cons, List.map_cons]
  · rw [hrk]; rfl
  · have hs : (recordKeysFrom b table startKey).Pairwise strLe := sortStrings_sorted _
    have hn : (recordKeysFrom b table startKey).Nodup := by
      have hn1 : (recordKeys b table).Nodup := by
        simp only [recordKeys]
        rw [List.nodup_map_iff_inj_on (hnd.filter _)]
        intro x hx y hy hxy
        simp only [List.mem_filter] at hx hy
        rw [eq_append_of_hasPrefix _ x hx.2, eq_append_of_hasPrefix _ y hy.2, hxy]
      exact ((sortStrings_perm _).nodup_iff).2 (hn1.filter _)
    refine (hs.and hn).imp ?_
    intro x y h
    cases hlt : strLt x y with
    | true => rfl
    | false => exact absurd (strLt_tri x y hlt h.1) h.2
  · intro rk
    simp only [recordKeysFrom, (sortStrings_perm _).mem_iff, List.mem_filter, recordKeys,
      List.mem_map, Bool.not_eq_true', strLe, ← hp]
    constructor
    · rintro ⟨⟨k, ⟨hkb, hpre⟩, rfl⟩, hge⟩
      refine ⟨?_, hge⟩
      rw [composeObjectKey_eq, ← hp, ← eq_append_of_hasPrefix p k hpre]
      exact hkb
    · rintro ⟨hmem, hge⟩
      rw [composeObjectKey_eq, ← hp] at hmem
      exact ⟨⟨p ++ rk, ⟨hmem, hasPrefix_append p rk⟩, stripPrefix_append p rk⟩, hge⟩

theorem keys_only_scan_of_existing_start_key_example :
    Scan sampleCodec ⟨true, true⟩
        [("tbl/keyB", []), ("tbl/keyA", []), ("tbl/keyC", []), ("tbm/x", [])]
        "tbl" "keyA" 3 [] =
      Outcome.ok [some [("keyA", [])], some [("keyB", [])], some [("keyC", [])]] :=
  (keys_only_scan_of_existing_start_key sampleCodec ⟨true, true⟩
    [("tbl/keyB", []), ("tbl/keyA", []), ("tbl/keyC", []), ("tbm/x", [])]
    "tbl" "keyA" 3 [] rfl (by decide) (by decide) (by decide) (by decide) (by decide)).1.trans
    (by decide)

theorem length_filterMap_of_isSome {α β : Type} (f : α → Option β) (l : List α)
    (h : ∀ x ∈ l, (f x).isSome = true) : (l.filterMap f).length = l.length := by
  induction l with
  | nil => rfl
  | cons a rest ih =>
    obtain ⟨y, hy⟩ := Option.isSome_iff_exists.1 (h a (List.mem_cons_self _ _))
    simp [List.filterMap_cons, hy, ih (fun x hx => h x (List.mem_cons_of_mem _ hx))]

/-- For one table, equal object keys come from equal keys. -/
theorem composeObjectKey_inj_key (table k1 k2 : String)
    (h : composeObjectKey table k1 = composeObjectKey table k2) : k1 = k2 := by
  rw [composeObjectKey_eq, composeObjectKey_eq] at h
  have hl := congrArg String.toList h
  simp only [String.toList, String.data_append] at hl
  exact String.ext (List.append_cancel_left hl)

/-- C14 as stated fails: the table holds one record, under the empty key; it
reads with success, so one record has a key not below the empty start key; but
`Scan` from the empty start key with a count of one returns no record. -/
theorem C14_empty_start_key_is_skipped :
    Read sampleCodec [("tbl/", [0x81, 0xa1, 107, 0xa1, 118])] "tbl" "" [] =
        some (some [("k", [118])]) ∧
      recordKeysFrom [("tbl/", [0x81, 0xa1, 107, 0xa1, 118])] "tbl" "" = [""] ∧
      Scan sampleCodec ⟨true, false⟩ [("tbl/", [0x81, 0xa1, 107, 0xa1, 118])] "tbl" "" 1 [] =
        Outcome.ok [] ∧
      Scan sampleCodec ⟨true, true⟩ [("tbl/", [0x81, 0xa1, 107, 0xa1, 118])] "tbl" "" 1 [] =
        Outcome.ok [] := by
  decide

/-- C14 as amended: for a start key that is not empty and exists in the table
and a count from 1 on (within int32), when every object read succeeds and the
read of the start key gives a map that is not nil, `Scan` returns exactly
`min(count, n)` records, where `n` is the number of records of the table whose
key is not below the start key, and so never more than `count`; for a count of
zero or less it returns no record and no error. -/
theorem C14_scan_size (cd : Codec) (db : s3DB) (b : Bucket) (table startKey : String)
    (count : Int) (fields : List String)
    (hk : startKey ≠ "") (hc1 : 1 ≤ count) (hc2 : count < 2 ^ 31)
    (hnd : b.keys.Nodup) (hex : composeObjectKey table startKey ∈ b.keys)
    (hread : db.scanKeysOnly = false →
      (∃ r0, Read cd b table startKey fields = some (some r0)) ∧
      ∀ rk, composeObjectKey table rk ∈ b.keys → (Read cd b table rk fields).isSome = true) :
    (∃ results, Scan cd db b table startKey count fields = Outcome.ok results ∧
        results.length = min count.toNat (recordKeysFrom b table startKey).length ∧
        (results.length : Int) ≤ count) ∧
      ∀ c : Int, c ≤ 0 → Scan cd db b table startKey c fields = Outcome.ok [] := by
  set p := tablePrefix table with hp
  set sa := composeObjectKey table startKey with hsa
  have hsae : sa = p ++ startKey := composeObjectKey_eq _ _
  have hrk := recordKeysFrom_eq b table startKey hnd hex
  rw [← hp, ← hsa] at hrk
  have hstart : ∃ r0, scanStart cd db b table startKey fields = [r0] := by
    by_cases hko : db.scanKeysOnly = true
    · exact ⟨_, scanStart_keysOnly cd db b table startKey fields hk hko⟩
    · have hko' : db.scanKeysOnly = false := by simpa using hko
      obtain ⟨r0, hr0⟩ := (hread hko').1
      exact ⟨some r0, by simp [scanStart, hk, hko', hr0]⟩
  obtain ⟨r0, hr0⟩ := hstart
  have hok : ∀ k ∈ listing b p sa, (scanRecord cd db b table fields p k).isSome = true := by
    intro k hkm
    by_cases hko : db.scanKeysOnly = true
    · simp [scanRecord, hko]
    · have hko' : db.scanKeysOnly = false := by simpa using hko
      obtain ⟨hkb, hpre, hlt⟩ := (mem_listing b p sa k).1 hkm
      rw [hsae] at hlt
      simp only [scanRecord, hko', Bool.false_eq_true, if_false,
        recordKeyOf_listed p startKey k hpre hlt]
      apply (hread hko').2
      rw [composeObjectKey_eq, ← hp, ← eq_append_of_hasPrefix p k hpre]
      exact hkb
  have hscan := Scan_from_start cd db b table startKey count fields r0 hk hc1 hc2 hr0 hok
  refine ⟨⟨_, hscan, ?_, ?_⟩, ?_⟩
  · rw [hrk]
    simp only [List.length_cons, List.length_map]
    rw [length_filterMap_of_isSome _ _ (fun x hx => hok x (List.mem_of_mem_take hx)),
      List.length_take]
    omega
  · simp only [List.length_cons]
    rw [length_filterMap_of_isSome _ _ (fun x hx => hok x (List.mem_of_mem_take hx)),
      List.length_take]
    omega
  · intro c hc
    simp [Scan, hc]

theorem C14_scan_size_witness :
    ∃ results, Scan sampleCodec ⟨true, false⟩
        [("tbl/keyB", [0x80]), ("tbl/keyA", [0x80]), ("tbl/keyC", [0xc0]), ("tbm/x", [])]
        "tbl" "keyA" 2 [] = Outcome.ok results ∧
      results.length = min (2 : Int).toNat (recordKeysFrom
        [("tbl/keyB", [0x80]), ("tbl/keyA", [0x80]), ("tbl/keyC", [0xc0]), ("tbm/x", [])]
        "tbl" "keyA").length ∧
      (results.length : Int) ≤ 2 :=
  (C14_scan_size sampleCodec ⟨true, false⟩
    [("tbl/keyB", [0x80]), ("tbl/keyA", [0x80]), ("tbl/keyC", [0xc0]), ("tbm/x", [])]
    "tbl" "keyA" 2 [] (by decide) (by decide) (by decide) (by decide) (by decide)
    (fun _ => ⟨⟨[], by decide⟩, fun rk hrk => by
      have hmem : composeObjectKey "tbl" rk ∈
          ["tbl/keyB", "tbl/keyA", "tbl/keyC", "tbm/x"] := hrk
      simp only [List.mem_cons, List.mem_singleton, List.not_mem_nil, or_false] at hmem
      rcases hmem with h | h | h | h
      · rw [composeObjectKey_inj_key "tbl" rk "keyB" (h.trans (by decide))]; decide
      · rw [composeObjectKey_inj_key "tbl" rk "keyA" (h.trans (by decide))]; decide
      · rw [composeObjectKey_inj_key "tbl" rk "keyC" (h.trans (by decide))]; decide
      · exfalso
        have h1 := congrArg String.toList h
        simp [composeObjectKey] at h1⟩)).1

end S3
